import Mathlib

/-!
Verification of the Traffix smart-traffic simulator (`trafix.cpp`).

The file shallowly embeds the C++ source: machine `int`s that stay
non-negative become `Nat`, the `double` ratio arithmetic inside
`allocateGreenTimes` is modelled by exact rational rounding
(`round(x)` for non-negative `x` is `⌊x + 1/2⌋`), and the process-wide
random arrival draws become an explicit `arrivals` parameter of the
cycle simulator.
-/

/-- Sentinel distance used by both routers (`const int INF = 1e9`). -/
def INF : Nat := 1000000000

/-! ## Green-time allocator (`allocateGreenTimes`, trafix.cpp:684-710)

The C++ computes `times[i] = max(1, (int)round((double)q[i]/total * cycleSec))`
and then repairs the rounding drift with two `while` loops.  For non-negative
arguments `round(x) = floor(x + 1/2)`, which over the exact rationals is
`(2*num + den) / (2*den)` for `x = num/den`. -/

/-- Total of the four per-direction values (`q[0]+q[1]+q[2]+q[3]`). -/
def sum4 (t : Fin 4 → Nat) : Nat := t 0 + t 1 + t 2 + t 3

/-- Nearest-integer rounding of `num / den`, halves away from zero, i.e.
`⌊num/den + 1/2⌋`; this is `(int)round((double)num/den)` for non-negative
ints (modulo double rounding, which the repair loops make irrelevant for
the properties proved here). -/
def roundDiv (num den : Nat) : Nat := (2 * num + den) / (2 * den)

/-- One step of the scan `for i: if (times[i] > 1 && q[i] < bestQ) idx = i`
(trafix.cpp:700).  `none` plays the role of `idx == -1, bestQ == INT_MAX`. -/
def decStep (q times : Fin 4 → Nat) (best : Option (Fin 4)) (i : Fin 4) : Option (Fin 4) :=
  match best with
  | none => if 1 < times i then some i else none
  | some j => if 1 < times i ∧ q i < q j then some i else best

/-- Index of the direction with the smallest queue among those with more than
one allocated second, first such index on ties (trafix.cpp:699-700). -/
def pickDec (q times : Fin 4 → Nat) : Option (Fin 4) :=
  (List.finRange 4).foldl (decStep q times) none

/-- Index of the direction with the largest queue, first on ties
(trafix.cpp:705-706, the scan starting from `bestQ = -1`). -/
def pickInc (q : Fin 4 → Nat) : Fin 4 :=
  (List.finRange 4).foldl (fun best i => if q best < q i then i else best) 0

/-- The loop `while (assigned > totalCycleSec) { ... times[idx]--; }`
(trafix.cpp:698-703), with enough fuel supplied by the caller.  Each
iteration removes one second from the `pickDec` direction, or stops at the
`idx == -1` break. -/
def shrinkTimes (q : Fin 4 → Nat) (c : Nat) : Nat → (Fin 4 → Nat) → (Fin 4 → Nat)
  | 0, t => t
  | fuel + 1, t =>
    if c < sum4 t then
      match pickDec q t with
      | none => t
      | some i => shrinkTimes q c fuel (Function.update t i (t i - 1))
    else t

/-- The loop `while (assigned < totalCycleSec) { ... times[idx]++; }`
(trafix.cpp:704-708), with enough fuel supplied by the caller. -/
def growTimes (q : Fin 4 → Nat) (c : Nat) : Nat → (Fin 4 → Nat) → (Fin 4 → Nat)
  | 0, t => t
  | fuel + 1, t =>
    if sum4 t < c then
      growTimes q c fuel (Function.update t (pickInc q) (t (pickInc q) + 1))
    else t

/-- `allocateGreenTimes` (trafix.cpp:684-710, the final source variant).
The shrink loop runs at most `sum4 t0 - c` iterations and the grow loop at
most `c - sum4 t0`, so fuels `sum4 t0` and `c` are always sufficient. -/
def allocateGreenTimes (q : Fin 4 → Nat) (totalCycleSec : Nat) : Fin 4 → Nat :=
  let total := q 0 + q 1 + q 2 + q 3
  if total = 0 then
    fun i => if i = 0 then totalCycleSec / 4 + totalCycleSec % 4 else totalCycleSec / 4
  else
    let t0 : Fin 4 → Nat := fun i => max 1 (roundDiv (q i * totalCycleSec) total)
    growTimes q totalCycleSec totalCycleSec
      (shrinkTimes q totalCycleSec (sum4 t0) t0)

/-- First near-duplicate of the allocator (trafix.cpp:67-93): the body is
token-for-token the logic of the final variant. -/
def allocateGreenTimesV1 (q : Fin 4 → Nat) (totalCycleSec : Nat) : Fin 4 → Nat :=
  let total := q 0 + q 1 + q 2 + q 3
  if total = 0 then
    fun i => if i = 0 then totalCycleSec / 4 + totalCycleSec % 4 else totalCycleSec / 4
  else
    let t0 : Fin 4 → Nat := fun i => max 1 (roundDiv (q i * totalCycleSec) total)
    growTimes q totalCycleSec totalCycleSec
      (shrinkTimes q totalCycleSec (sum4 t0) t0)

/-- Second near-duplicate of the allocator (trafix.cpp:283-315): identical
logic again, differing from the others only in comments. -/
def allocateGreenTimesV2 (q : Fin 4 → Nat) (totalCycleSec : Nat) : Fin 4 → Nat :=
  let total := q 0 + q 1 + q 2 + q 3
  if total = 0 then
    fun i => if i = 0 then totalCycleSec / 4 + totalCycleSec % 4 else totalCycleSec / 4
  else
    let t0 : Fin 4 → Nat := fun i => max 1 (roundDiv (q i * totalCycleSec) total)
    growTimes q totalCycleSec totalCycleSec
      (shrinkTimes q totalCycleSec (sum4 t0) t0)

/-- Number of one-second adjustments the reconciliation loops perform:
`|sum4 t0 - cycleSec|` where `t0` is the initial rounded allocation
(zero in the all-queues-empty branch, which has no loops). -/
def reconAdjustments (q : Fin 4 → Nat) (c : Nat) : Nat :=
  let total := q 0 + q 1 + q 2 + q 3
  if total = 0 then 0
  else
    let a := sum4 (fun i => max 1 (roundDiv (q i * c) total))
    (a - c) + (c - a)

/-! ## Intersections (`struct Intersection`, trafix.cpp:567-575) -/

/-- Per-node state: directional queues (0=N,1=S,2=E,3=W), the printed green
direction (`-1` before any cycle), and the per-cycle ambulance flags. -/
structure Intersection where
  id : Nat
  q : Fin 4 → Nat
  green_dir : Int
  ambulance_override : Fin 4 → Bool
deriving DecidableEq

instance : Inhabited Intersection := ⟨⟨0, fun _ => 0, -1, fun _ => false⟩⟩

/-- `(int)floor(serviceRate * serveSec + 1e-9)` (trafix.cpp:773), with the
`double` modelled as an exact rational.  The configuration surface only
admits positive rates, for which the `(int)` cast is `Int.toNat`. -/
def canServe (rate : ℚ) (sec : Nat) : Nat :=
  (⌊rate * sec + 1 / 1000000000⌋).toNat

/-- `for d: if (I.ambulance_override[d]) hasOverride = true` (trafix.cpp:754). -/
def hasOverride (ov : Fin 4 → Bool) : Bool :=
  (List.finRange 4).any fun d => ov d

/-- `for d: if (I.ambulance_override[d]) { giveDir = d; break; }` (trafix.cpp:759). -/
def firstOverrideDir (ov : Fin 4 → Bool) : Option (Fin 4) :=
  (List.finRange 4).find? fun d => ov d

/-- `best = 0; for d = 1..3: if (greenTimes[d] > greenTimes[best]) best = d`
(trafix.cpp:766-767): first direction with the maximal allocation. -/
def argmaxGreen (gt : Fin 4 → Nat) : Fin 4 :=
  (List.finRange 4).foldl (fun best d => if gt best < gt d then d else best) 0

/-- The per-node allocation/override block of `simulateCycle`
(trafix.cpp:755-769): returns the final green-time split together with the
recorded green direction. -/
def nodeGreenSplit (I : Intersection) (totalCycleSec : Nat) : (Fin 4 → Nat) × Int :=
  let greenTimes := allocateGreenTimes I.q totalCycleSec
  if hasOverride I.ambulance_override then
    match firstOverrideDir I.ambulance_override with
    | some giveDir =>
        (fun d => if d = giveDir then totalCycleSec else 0, ((giveDir : Nat) : Int))
    | none => (greenTimes, I.green_dir)
  else
    (greenTimes, ((argmaxGreen greenTimes : Nat) : Int))

/-- The per-node service block of `simulateCycle` (trafix.cpp:755-779):
serves `min(canServe, q[d])` vehicles in every direction and returns the
updated intersection together with the number of vehicles served. -/
def serveNode (totalCycleSec : Nat) (serviceRate : ℚ) (I : Intersection) :
    Intersection × Nat :=
  let gs := nodeGreenSplit I totalCycleSec
  let served : Fin 4 → Nat := fun d => min (canServe serviceRate (gs.1 d)) (I.q d)
  ({ I with q := fun d => I.q d - served d, green_dir := gs.2 },
   served 0 + served 1 + served 2 + served 3)

/-- Index-aware map used to model loops of the form `for i: city[i] = f(i, city[i])`. -/
def mapIdxFrom (f : Nat → α → β) : Nat → List α → List β
  | _, [] => []
  | s, x :: xs => f s x :: mapIdxFrom f (s + 1) xs

/-- Arrival step (trafix.cpp:721-727): adds `arr i d` to queue `d` of node `i`
(the C++ draws these from `rand()`; the draws are an explicit parameter here). -/
def addArrivals (city : List Intersection) (arr : Nat → Fin 4 → Nat) : List Intersection :=
  mapIdxFrom (fun i I => { I with q := fun d => I.q d + arr i d }) 0 city

/-- Arrivals of one node. -/
def arrSum (arr : Nat → Fin 4 → Nat) (i : Nat) : Nat :=
  arr i 0 + arr i 1 + arr i 2 + arr i 3

/-- `vehiclesArrivedTotal` contribution of nodes `s, s+1, ..., s+n-1`. -/
def arrivedFrom (arr : Nat → Fin 4 → Nat) : Nat → Nat → Nat
  | _, 0 => 0
  | s, n + 1 => arrSum arr s + arrivedFrom arr (s + 1) n

/-- Reset of all override flags (trafix.cpp:729-731). -/
def clearOverrides (city : List Intersection) : List Intersection :=
  city.map fun I => { I with ambulance_override := fun _ => false }

/-- Direction of the move from node `u` to node `v` on a `C`-column grid
(trafix.cpp:737-743); `none` is the `dir == -1` case. -/
def pathDir (u v C : Nat) : Option (Fin 4) :=
  let ur : Int := (u / C : Nat)
  let uc : Int := (u % C : Nat)
  let vr : Int := (v / C : Nat)
  let vc : Int := (v % C : Nat)
  if vr = ur - 1 ∧ vc = uc then some 0
  else if vr = ur + 1 ∧ vc = uc then some 1
  else if vr = ur ∧ vc = uc + 1 then some 2
  else if vr = ur ∧ vc = uc - 1 then some 3
  else none

/-- `city[u].ambulance_override[d] = true` (trafix.cpp:745). -/
def applyOverride (city : List Intersection) (u : Nat) (d : Fin 4) : List Intersection :=
  mapIdxFrom
    (fun j I =>
      if j = u then { I with ambulance_override := Function.update I.ambulance_override d true }
      else I)
    0 city

/-- Override setup along consecutive path pairs (trafix.cpp:733-748). -/
def setOverrides (city : List Intersection) (path : List Nat) (C : Nat) : List Intersection :=
  (List.range (path.length - 1)).foldl
    (fun ct idx =>
      match pathDir (path.getD idx 0) (path.getD (idx + 1) 0) C with
      | some d => applyOverride ct (path.getD idx 0) d
      | none => ct)
    city

/-- City state after arrivals and override setup, before the per-node
allocation/service loop of `simulateCycle`. -/
def cycleMidState (city : List Intersection) (path : List Nat) (C : Nat)
    (arr : Nat → Fin 4 → Nat) : List Intersection :=
  setOverrides (clearOverrides (addArrivals city arr)) path C

/-- `simulateCycle` (trafix.cpp:713-781): arrivals, override setup, per-node
allocation and service.  Returns the new city plus the increments of the
three accumulators: vehicles arrived, vehicles served, and the cumulative
post-service queue sum. -/
def simulateCycle (city : List Intersection) (ambulancePath : List Nat) (C : Nat)
    (totalCycleSec : Nat) (serviceRate : ℚ) (arr : Nat → Fin 4 → Nat) :
    List Intersection × Nat × Nat × Nat :=
  let city2 := cycleMidState city ambulancePath C arr
  let results := city2.map (serveNode totalCycleSec serviceRate)
  (results.map Prod.fst,
   arrivedFrom arr 0 city.length,
   (results.map Prod.snd).sum,
   (results.map fun p => sum4 p.1.q).sum)

/-! ## Grid graph and routers (trafix.cpp:566, 577-578, 587, 590-664) -/

/-- `struct Edge { int to; int w; }`. -/
structure Edge where
  tgt : Nat
  w : Nat
deriving DecidableEq

/-- `int dr[4] = {-1, 1, 0, 0}` (N S E W). -/
def drI : Fin 4 → Int
  | 0 => -1
  | 1 => 1
  | 2 => 0
  | 3 => 0

/-- `int dc[4] = {0, 0, 1, -1}`. -/
def dcI : Fin 4 → Int
  | 0 => 0
  | 1 => 0
  | 2 => 1
  | 3 => -1

/-- `int nodeId(int r, int c, int C) { return r * C + c; }`. -/
def nodeId (r c C : Nat) : Nat := r * C + c

/-- Edges pushed for node `(r,c)` by `buildGridGraph` (trafix.cpp:655-661):
the in-bounds 4-neighbors with unit weight, in N,S,E,W order. -/
def gridNeighbors (R C r c : Nat) : List Edge :=
  (List.finRange 4).filterMap fun d =>
    let nr : Int := (r : Int) + drI d
    let nc : Int := (c : Int) + dcI d
    if 0 ≤ nr ∧ nr < (R : Int) ∧ 0 ≤ nc ∧ nc < (C : Int) then
      some ⟨nodeId nr.toNat nc.toNat C, 1⟩
    else none

/-- `buildGridGraph` (trafix.cpp:649-664): row-major adjacency lists; the
node `nodeId r c C = r*C + c` sits at exactly that list index. -/
def buildGridGraph (R C : Nat) : List (List Edge) :=
  (List.range R).flatMap fun r => (List.range C).map fun c => gridNeighbors R C r c

/-- Adjacency list of node `u` (out-of-range reads, impossible for the valid
node ids the C++ accesses, give the empty list). -/
def adjOf (g : List (List Edge)) (u : Nat) : List Edge := g.getD u []

/-- Lexicographic order on `(dist, node)` pairs: `std::pair::operator<`, so
`priority_queue<..., greater<...>>` extracts the least pair. -/
def pairLtB (a b : Nat × Nat) : Bool :=
  decide (a.1 < b.1 ∨ (a.1 = b.1 ∧ a.2 < b.2))

/-- Least pair among `best` and the remaining entries. -/
def pqMinAux (best : Nat × Nat) : List (Nat × Nat) → Nat × Nat
  | [] => best
  | p :: rest => pqMinAux (if pairLtB p best then p else best) rest

/-- `pq.top(); pq.pop()`: extract one least pair from the multiset of
entries. -/
def pqPop : List (Nat × Nat) → Option ((Nat × Nat) × List (Nat × Nat))
  | [] => none
  | p :: rest =>
    let m := pqMinAux p rest
    some (m, (p :: rest).erase m)

/-- Relaxation of a single edge out of `u` (trafix.cpp:601-608):
`if (dist[u] + e.w < dist[v]) { dist[v] = ..; parent[v] = u; pq.push(..); }`. -/
def relaxStep (u : Nat) (st : (Nat → Nat) × (Nat → Option Nat) × List (Nat × Nat))
    (e : Edge) : (Nat → Nat) × (Nat → Option Nat) × List (Nat × Nat) :=
  if st.1 u + e.w < st.1 e.tgt then
    (Function.update st.1 e.tgt (st.1 u + e.w),
     Function.update st.2.1 e.tgt (some u),
     (st.1 u + e.w, e.tgt) :: st.2.2)
  else st

/-- The Dijkstra work loop (trafix.cpp:597-609): pop the least pair, skip
stale entries (`d != dist[u]`), break at `dest`, otherwise relax the edges
of `u`.  Each iteration strictly decreases `2*Σ dist + |pq|`, so any fuel
above that measure never runs out. -/
def dijkstraLoop (g : List (List Edge)) (dest : Nat) :
    Nat → (Nat → Nat) → (Nat → Option Nat) → List (Nat × Nat) →
    (Nat → Nat) × (Nat → Option Nat)
  | 0, dist, parent, _ => (dist, parent)
  | fuel + 1, dist, parent, pq =>
    match pqPop pq with
    | none => (dist, parent)
    | some ((d, u), pq1) =>
      if d ≠ dist u then dijkstraLoop g dest fuel dist parent pq1
      else if u = dest then (dist, parent)
      else
        let st := (adjOf g u).foldl (relaxStep u) (dist, parent, pq1)
        dijkstraLoop g dest fuel st.1 st.2.1 st.2.2

/-- `for (int v = dest; v != -1; v = parent[v]) path.push_back(v)`
(trafix.cpp:612); parent chains strictly decrease `dist`, so fuel `INF`
always reaches the root. -/
def walkParents (parent : Nat → Option Nat) : Nat → Nat → List Nat
  | 0, v => [v]
  | fuel + 1, v =>
    match parent v with
    | none => [v]
    | some u => v :: walkParents parent fuel u

/-- `dijkstraPath` (trafix.cpp:590-615). -/
def dijkstraPath (src dest : Nat) (g : List (List Edge)) : List Nat :=
  let dist0 : Nat → Nat := fun v => if v = src then 0 else INF
  let res := dijkstraLoop g dest (2 * g.length * INF + 2) dist0 (fun _ => none) [(0, src)]
  if res.1 dest = INF then [] else (walkParents res.2 INF dest).reverse

/-- `congestion = city[v].q[0] + city[v].q[1] + city[v].q[2] + city[v].q[3]`
(trafix.cpp:632). -/
def congestionOf (city : List Intersection) (v : Nat) : Nat :=
  sum4 (city.getD v default).q

/-- The congestion variant recomputes every edge weight as
`1 + congestion(v)/5` (trafix.cpp:631-633); since the queue snapshot is
fixed during the search this equals running the same loop on the reweighted
graph. -/
def reweight (city : List Intersection) (g : List (List Edge)) : List (List Edge) :=
  g.map fun es => es.map fun e => ⟨e.tgt, 1 + congestionOf city e.tgt / 5⟩

/-- `dijkstraCongestionPath` (trafix.cpp:618-646). -/
def dijkstraCongestionPath (src dest : Nat) (g : List (List Edge))
    (city : List Intersection) : List Nat :=
  dijkstraPath src dest (reweight city g)

/-! ## Path semantics used to state router optimality -/

/-- Cost of continuing a walk `a :: p` through the graph: `none` when some
step is not an edge, otherwise the sum of the traversed edge weights. -/
def costFrom (g : List (List Edge)) : Nat → List Nat → Option Nat
  | _, [] => some 0
  | a, b :: rest =>
    match (adjOf g a).find? (fun e => e.tgt == b) with
    | none => none
    | some e => (costFrom g b rest).map fun cst => e.w + cst

/-- `p` is a path from `src` to `dest` of total weight `c`. -/
def PCost (g : List (List Edge)) (src dest : Nat) (p : List Nat) (c : Nat) : Prop :=
  ∃ rest, p = src :: rest ∧ (src :: rest).getLast? = some dest ∧
    costFrom g src rest = some c

/-- Well-formed graph: edge targets in range and weights at least 1 (all
weights in this program are `1` or `1 + congestion/5`). -/
def GraphOk (g : List (List Edge)) : Prop :=
  ∀ u, u < g.length → ∀ e ∈ adjOf g u, e.tgt < g.length ∧ 1 ≤ e.w

/-- No parallel edges: each adjacency list mentions each target once. -/
def TargetsNodup (g : List (List Edge)) : Prop :=
  ∀ u, ((adjOf g u).map Edge.tgt).Nodup

/-! ## Invariants of the Dijkstra loop -/

/-- Parent pointers record a relaxed edge: `parent[v] = u` was set by a
successful relaxation, so some edge `u → v` satisfies
`dist u + w ≤ dist v`. -/
def ParentInv (g : List (List Edge)) (dist : Nat → Nat)
    (parent : Nat → Option Nat) : Prop :=
  ∀ v u, parent v = some u → u < g.length ∧
    ∃ e ∈ adjOf g u, e.tgt = v ∧ dist u + e.w ≤ dist v

/-- Only the source keeps `parent = -1` among reached nodes. -/
def ParentRoot (src : Nat) (dist : Nat → Nat) (parent : Nat → Option Nat) : Prop :=
  ∀ v, dist v < INF → parent v = none → v = src

/-- Loop invariant of `dijkstraLoop` with ghost set `S` of settled nodes:
settled distances are lower bounds of all path costs and are fully relaxed,
every reached unsettled node keeps a fresh queue entry, queue entries
over-approximate distances, and parent pointers witness relaxed edges. -/
structure DijkInv (g : List (List Edge)) (src : Nat) (S : Nat → Prop)
    (dist : Nat → Nat) (parent : Nat → Option Nat)
    (pq : List (Nat × Nat)) : Prop where
  dist_src : dist src = 0
  dist_le : ∀ v, dist v ≤ INF
  s_lt : ∀ u, S u → u < g.length
  s_lb : ∀ u, S u → ∀ rest c, costFrom g src rest = some c →
    (src :: rest).getLast? = some u → dist u ≤ c
  s_relax : ∀ u, S u → ∀ e ∈ adjOf g u, dist e.tgt ≤ dist u + e.w
  fresh : ∀ v, v < g.length → ¬ S v → dist v < INF → (dist v, v) ∈ pq
  pq_ok : ∀ d v, (d, v) ∈ pq → v < g.length ∧ dist v ≤ d ∧ d < INF
  par : ParentInv g dist parent
  root : ParentRoot src dist parent

/-- Invariant carried through the relaxation fold of a freshly popped node
`u`: the distances of `S ∪ {u}` are pinned at their pop-time values and the
`DijkInv` fields hold with `u`'s fresh entry removed. -/
structure RelaxInv (g : List (List Edge)) (src u : Nat) (S : Nat → Prop)
    (dist0 : Nat → Nat)
    (st : (Nat → Nat) × (Nat → Option Nat) × List (Nat × Nat)) : Prop where
  pinned : ∀ x, S x ∨ x = u → st.1 x = dist0 x
  mono : ∀ v, st.1 v ≤ dist0 v
  dist_src : st.1 src = 0
  dist_le : ∀ v, st.1 v ≤ INF
  s_lb : ∀ x, S x ∨ x = u → ∀ rest c, costFrom g src rest = some c →
    (src :: rest).getLast? = some x → st.1 x ≤ c
  s_relax_old : ∀ x, S x → ∀ e ∈ adjOf g x, st.1 e.tgt ≤ st.1 x + e.w
  fresh : ∀ v, v < g.length → ¬ (S v ∨ v = u) → st.1 v < INF → (st.1 v, v) ∈ st.2.2
  pq_ok : ∀ d v, (d, v) ∈ st.2.2 → v < g.length ∧ st.1 v ≤ d ∧ d < INF
  par : ParentInv g st.1 st.2.1
  root : ParentRoot src st.1 st.2.1

/-- What holds of `(dist, parent)` when the loop returns: the invariant
pieces the path reconstruction needs, plus `dist dest` under-approximating
every path cost to `dest`. -/
def PostOk (g : List (List Edge)) (src dest : Nat)
    (dp : (Nat → Nat) × (Nat → Option Nat)) : Prop :=
  dp.1 src = 0 ∧ (∀ v, dp.1 v ≤ INF) ∧ ParentInv g dp.1 dp.2 ∧
    ParentRoot src dp.1 dp.2 ∧
    ∀ rest c, costFrom g src rest = some c →
      (src :: rest).getLast? = some dest → dp.1 dest ≤ c

/-- Termination measure of the loop. -/
def sumDist (n : Nat) (dist : Nat → Nat) : Nat :=
  ∑ v ∈ Finset.range n, dist v

/-- Concrete one-node city used by test witnesses. -/
def c4wCity : List Intersection :=
  [Intersection.mk 0 ![1, 2, 3, 4] (-1) ![false, false, false, false]]

/-- Concrete arrival pattern (one vehicle per lane per node) used by test
witnesses. -/
def c4wArr : Nat → Fin 4 → Nat := fun _ _ => 1

/-- Concrete heavily congested 1-by-4 city: every direction of every node
queues 500000000 vehicles, so each node's congestion is 2000000000 and every
reweighted edge costs `1 + 2000000000 / 5 = 400000001`. -/
def c2city : List Intersection :=
  List.replicate 4 (Intersection.mk 0 (fun _ => 500000000) (-1) (fun _ => false))

/-! ### Allocator lemmas -/

lemma sum4_update (t : Fin 4 → Nat) (i : Fin 4) (v : Nat) :
    sum4 (Function.update t i v) + t i = sum4 t + v := by
  fin_cases i <;> simp [sum4, Function.update] <;> omega

lemma finRange_four : List.finRange 4 = [0, 1, 2, 3] := by decide

lemma pickDec_expand (q t : Fin 4 → Nat) :
    pickDec q t = decStep q t (decStep q t (decStep q t (decStep q t none 0) 1) 2) 3 := by
  rw [pickDec, finRange_four]
  rfl

lemma decStep_some_prop {q t : Fin 4 → Nat} {b : Option (Fin 4)} {j : Fin 4}
    (hb : ∀ k, b = some k → 1 < t k) :
    ∀ k, decStep q t b j = some k → 1 < t k := by
  intro k hk
  cases b with
  | none =>
    simp only [decStep] at hk
    split at hk
    · cases hk; assumption
    · cases hk
  | some m =>
    simp only [decStep] at hk
    split at hk
    · cases hk
      rename_i hcond
      exact hcond.1
    · exact hb k hk

lemma pickDec_some {q t : Fin 4 → Nat} {i : Fin 4} (h : pickDec q t = some i) :
    1 < t i := by
  rw [pickDec_expand] at h
  exact decStep_some_prop
    (decStep_some_prop (decStep_some_prop (decStep_some_prop
      (fun k hk => Option.noConfusion hk)))) i h

lemma decStep_none {q t : Fin 4 → Nat} {b : Option (Fin 4)} {j : Fin 4}
    (hb : decStep q t b j = none) : b = none ∧ t j ≤ 1 := by
  cases b with
  | none =>
    simp only [decStep] at hb
    split at hb
    · cases hb
    · exact ⟨rfl, by omega⟩
  | some m =>
    simp only [decStep] at hb
    split at hb <;> cases hb

lemma pickDec_none {q t : Fin 4 → Nat} (h : pickDec q t = none) :
    ∀ i, t i ≤ 1 := by
  rw [pickDec_expand] at h
  obtain ⟨h3, e3⟩ := decStep_none h
  obtain ⟨h2, e2⟩ := decStep_none h3
  obtain ⟨h1, e1⟩ := decStep_none h2
  obtain ⟨_, e0⟩ := decStep_none h1
  intro i
  fin_cases i <;> assumption

lemma shrinkTimes_ge_one {q : Fin 4 → Nat} {c : Nat} :
    ∀ {fuel : Nat} {t : Fin 4 → Nat}, (∀ j, 1 ≤ t j) →
      ∀ j, 1 ≤ shrinkTimes q c fuel t j := by
  intro fuel
  induction fuel with
  | zero => intro t h j; exact h j
  | succ n ih =>
    intro t h j
    simp only [shrinkTimes]
    split
    · cases hp : pickDec q t with
      | none => exact h j
      | some i =>
        apply ih
        intro k
        by_cases hk : k = i
        · subst hk
          have := pickDec_some hp
          simp [Function.update]
          omega
        · simpa [Function.update, hk] using h k
    · exact h j

lemma shrinkTimes_sum {q : Fin 4 → Nat} {c : Nat} (hc : 4 ≤ c) :
    ∀ {fuel : Nat} {t : Fin 4 → Nat}, (∀ j, 1 ≤ t j) → sum4 t ≤ c + fuel →
      sum4 (shrinkTimes q c fuel t) = min (sum4 t) c := by
  intro fuel
  induction fuel with
  | zero =>
    intro t _ hf
    simp only [shrinkTimes]
    omega
  | succ n ih =>
    intro t h1 hf
    simp only [shrinkTimes]
    split
    · rename_i hlt
      cases hp : pickDec q t with
      | none =>
        exfalso
        have := pickDec_none hp
        have e0 := this 0
        have e1 := this 1
        have e2 := this 2
        have e3 := this 3
        simp only [sum4] at hlt
        omega
      | some i =>
        have hi := pickDec_some hp
        have hupd := sum4_update t i (t i - 1)
        have hsum : sum4 (Function.update t i (t i - 1)) = sum4 t - 1 := by omega
        have hge : ∀ k, 1 ≤ Function.update t i (t i - 1) k := by
          intro k
          by_cases hk : k = i
          · subst hk; simp [Function.update]; omega
          · simpa [Function.update, hk] using h1 k
        rw [ih hge (by omega), hsum]
        omega
    · omega

lemma growTimes_ge {q : Fin 4 → Nat} {c : Nat} :
    ∀ {fuel : Nat} {t : Fin 4 → Nat} (j : Fin 4), t j ≤ growTimes q c fuel t j := by
  intro fuel
  induction fuel with
  | zero => intro t j; simp [growTimes]
  | succ n ih =>
    intro t j
    simp only [growTimes]
    split
    · refine le_trans ?_ (ih j)
      by_cases hj : j = pickInc q
      · subst hj; simp [Function.update]
      · simp [Function.update, hj]
    · exact le_refl _

lemma growTimes_sum {q : Fin 4 → Nat} {c : Nat} :
    ∀ {fuel : Nat} {t : Fin 4 → Nat}, c ≤ sum4 t + fuel →
      sum4 (growTimes q c fuel t) = max (sum4 t) c := by
  intro fuel
  induction fuel with
  | zero =>
    intro t hf
    simp only [growTimes]
    omega
  | succ n ih =>
    intro t hf
    simp only [growTimes]
    split
    · rename_i hlt
      have hupd := sum4_update t (pickInc q) (t (pickInc q) + 1)
      have hsum : sum4 (Function.update t (pickInc q) (t (pickInc q) + 1)) = sum4 t + 1 := by
        omega
      rw [ih (by omega), hsum]
      omega
    · omega

lemma sum4_ge_four {t : Fin 4 → Nat} (h : ∀ j, 1 ≤ t j) : 4 ≤ sum4 t := by
  have h0 := h 0
  have h1 := h 1
  have h2 := h 2
  have h3 := h 3
  simp only [sum4]
  omega

/-- Zero-queue branch: equal quarters with the remainder on direction 0. -/
lemma allocate_sum_zero (q : Fin 4 → Nat) (c : Nat) (h : q 0 + q 1 + q 2 + q 3 = 0) :
    sum4 (allocateGreenTimes q c) = c := by
  have hd := Nat.div_add_mod c 4
  simp [allocateGreenTimes, h, sum4, show (1 : Fin 4) ≠ 0 by decide,
    show (2 : Fin 4) ≠ 0 by decide, show (3 : Fin 4) ≠ 0 by decide]
  omega

lemma allocate_pos_branch (q : Fin 4 → Nat) (c : Nat) (h : ¬ q 0 + q 1 + q 2 + q 3 = 0) :
    allocateGreenTimes q c =
      growTimes q c c
        (shrinkTimes q c (sum4 (fun i => max 1 (roundDiv (q i * c) (q 0 + q 1 + q 2 + q 3))))
          (fun i => max 1 (roundDiv (q i * c) (q 0 + q 1 + q 2 + q 3)))) := by
  simp [allocateGreenTimes, h]

/-- Exact-sum property for `cycleSeconds ≥ 4` (any queue vector). -/
lemma allocate_sum (q : Fin 4 → Nat) (c : Nat) (hc : 4 ≤ c) :
    sum4 (allocateGreenTimes q c) = c := by
  by_cases h : q 0 + q 1 + q 2 + q 3 = 0
  · exact allocate_sum_zero q c h
  · rw [allocate_pos_branch q c h]
    set t0 : Fin 4 → Nat := fun i => max 1 (roundDiv (q i * c) (q 0 + q 1 + q 2 + q 3)) with ht0
    have hge : ∀ j, 1 ≤ t0 j := by
      intro j
      simp [ht0]
    have hshr := shrinkTimes_sum (q := q) hc hge (le_add_self (a := sum4 t0) (b := c))
    have hge2 : ∀ j, 1 ≤ shrinkTimes q c (sum4 t0) t0 j := shrinkTimes_ge_one hge
    have hs4 : 4 ≤ sum4 (shrinkTimes q c (sum4 t0) t0) := sum4_ge_four hge2
    rw [growTimes_sum (by omega)]
    omega

/-- Every direction keeps at least one second whenever some queue is nonzero. -/
lemma allocate_ge_one (q : Fin 4 → Nat) (c : Nat) (h : ¬ q 0 + q 1 + q 2 + q 3 = 0) :
    ∀ i, 1 ≤ allocateGreenTimes q c i := by
  rw [allocate_pos_branch q c h]
  intro i
  have hge : ∀ j, (1 : Nat) ≤ max 1 (roundDiv (q j * c) (q 0 + q 1 + q 2 + q 3)) := by
    intro j; simp
  exact le_trans (shrinkTimes_ge_one hge i) (growTimes_ge i)

lemma roundDiv_le (num den : Nat) (hden : 0 < den) :
    roundDiv num den ≤ num / den + 1 := by
  have hx : 0 < 2 * den := by omega
  rw [roundDiv, Nat.div_le_iff_le_mul_add_pred hx]
  have h := Nat.div_add_mod num den
  have hm : num % den < den := Nat.mod_lt _ hden
  have expand : 2 * den * (num / den + 1) = 2 * (den * (num / den)) + 2 * den := by ring
  omega

lemma div_add_div_le (a b den : Nat) (hden : 0 < den) :
    a / den + b / den ≤ (a + b) / den := by
  rw [Nat.le_div_iff_mul_le hden, Nat.add_mul]
  have ha := Nat.div_mul_le_self a den
  have hb := Nat.div_mul_le_self b den
  omega

/-- The initial rounded allocation sums to at most `c + 4`. -/
lemma initial_sum_le (q : Fin 4 → Nat) (c : Nat) (h : ¬ q 0 + q 1 + q 2 + q 3 = 0) :
    sum4 (fun i => max 1 (roundDiv (q i * c) (q 0 + q 1 + q 2 + q 3))) ≤ c + 4 := by
  set T := q 0 + q 1 + q 2 + q 3 with hT
  have hTpos : 0 < T := by omega
  have hterm : ∀ i : Fin 4, max 1 (roundDiv (q i * c) T) ≤ q i * c / T + 1 := by
    intro i
    have h1 := roundDiv_le (q i * c) T hTpos
    exact max_le (Nat.succ_le_succ (Nat.zero_le _)) h1
  have hsumdiv : q 0 * c / T + q 1 * c / T + q 2 * c / T + q 3 * c / T ≤ c := by
    have h01 := div_add_div_le (q 0 * c) (q 1 * c) T hTpos
    have h012 := div_add_div_le (q 0 * c + q 1 * c) (q 2 * c) T hTpos
    have h0123 := div_add_div_le (q 0 * c + q 1 * c + q 2 * c) (q 3 * c) T hTpos
    have hall : (q 0 * c + q 1 * c + q 2 * c + q 3 * c) / T = c := by
      have : q 0 * c + q 1 * c + q 2 * c + q 3 * c = T * c := by rw [hT]; ring
      rw [this, Nat.mul_div_cancel_left c hTpos]
    omega
  have h0 := hterm 0
  have h1 := hterm 1
  have h2 := hterm 2
  have h3 := hterm 3
  simp only [sum4]
  omega

/-- The reconciliation performs at most `cycleSeconds` one-second adjustments. -/
lemma reconAdjustments_le (q : Fin 4 → Nat) (c : Nat) (hc : 4 ≤ c) :
    reconAdjustments q c ≤ c := by
  by_cases h : q 0 + q 1 + q 2 + q 3 = 0
  · simp [reconAdjustments, h]
  · have hle := initial_sum_le q c h
    have hge : 4 ≤ sum4 (fun i => max 1 (roundDiv (q i * c) (q 0 + q 1 + q 2 + q 3))) := by
      refine sum4_ge_four ?_
      intro j
      simp
    simp only [reconAdjustments, if_neg h]
    omega

/-! ## Allocator claims -/

/-- C1, counterexample: for `cycleSeconds = 2 > 0` and queues `[1,1,1,1]` the
decrement loop hits its `idx == -1` break (no direction has more than one
second), so the returned values sum to 4, not to `cycleSeconds`. -/
theorem c1_counterexample :
    (0 : Nat) < 2 ∧ sum4 (allocateGreenTimes ![1, 1, 1, 1] 2) ≠ 2 := by
  constructor
  · decide
  · decide

/-- C1 (amended): for every queue vector and every `cycleSeconds ≥ 4`,
`allocateGreenTimes` returns four (non-negative) integers summing exactly to
`cycleSeconds`, and the rounding-reconciliation loops perform at most
`cycleSeconds` one-second adjustments.  For `cycleSeconds < 4` the decrement
loop may break with an excess sum. -/
theorem c1_allocator_exact_sum (q : Fin 4 → Nat) (c : Nat) (hc : 4 ≤ c) :
    sum4 (allocateGreenTimes q c) = c ∧ reconAdjustments q c ≤ c :=
  ⟨allocate_sum q c hc, reconAdjustments_le q c hc⟩

/-- Witness for C1 at queues `[3,1,4,1]`, `cycleSeconds = 30`. -/
theorem c1_allocator_exact_sum_witness :
    4 ≤ 30 ∧ (sum4 (allocateGreenTimes ![3, 1, 4, 1] 30) = 30 ∧
      reconAdjustments ![3, 1, 4, 1] 30 ≤ 30) :=
  ⟨by decide, c1_allocator_exact_sum ![3, 1, 4, 1] 30 (by decide)⟩

/-- C7: with all four queues zero and any `cycleSeconds > 0`, the allocator
splits the cycle into equal quarters and adds the whole remainder to the
first direction (North); in particular 30 seconds give `[9,7,7,7]`. -/
theorem c7_zero_queue_split (c : Nat) (hc : 0 < c) :
    (allocateGreenTimes (fun _ => 0) c =
      fun i => if i = 0 then c / 4 + c % 4 else c / 4) ∧
      allocateGreenTimes (fun _ => 0) 30 = ![9, 7, 7, 7] := by
  constructor
  · simp [allocateGreenTimes]
  · decide

/-- Witness for C7 at `cycleSeconds = 5`. -/
theorem c7_zero_queue_split_witness :
    (0 : Nat) < 5 ∧ ((allocateGreenTimes (fun _ => 0) 5 =
      fun i => if i = 0 then 5 / 4 + 5 % 4 else 5 / 4) ∧
      allocateGreenTimes (fun _ => 0) 30 = ![9, 7, 7, 7]) :=
  ⟨by decide, c7_zero_queue_split 5 (by decide)⟩

/-- C8: when the queue total is nonzero, every direction receives at least
one second, whatever `cycleSeconds > 0` is: the initial allocation takes
`max 1 ·`, the decrement loop never goes below 1, and the increment loop
only adds. -/
theorem c8_no_starvation (q : Fin 4 → Nat) (c : Nat)
    (hq : q 0 + q 1 + q 2 + q 3 ≠ 0) (hc : 0 < c) :
    ∀ i, 1 ≤ allocateGreenTimes q c i :=
  allocate_ge_one q c hq

/-- Witness for C8 at queues `[0,2,0,0]`, `cycleSeconds = 5`. -/
theorem c8_no_starvation_witness :
    ((0 : Nat) + 2 + 0 + 0 ≠ 0 ∧ (0 : Nat) < 5) ∧
      ∀ i, 1 ≤ allocateGreenTimes ![0, 2, 0, 0] 5 i :=
  ⟨⟨by decide, by decide⟩, c8_no_starvation ![0, 2, 0, 0] 5 (by decide) (by decide)⟩

/-- C10: the three near-duplicate `allocateGreenTimes` implementations in the
source file compute the same function on every queue state and cycle length. -/
theorem c10_duplicate_allocators_agree (q : Fin 4 → Nat) (c : Nat) :
    allocateGreenTimesV1 q c = allocateGreenTimes q c ∧
      allocateGreenTimesV2 q c = allocateGreenTimes q c :=
  ⟨rfl, rfl⟩

/-! ### Cycle simulator lemmas -/

lemma mapIdxFrom_length (f : Nat → α → β) : ∀ (s : Nat) (l : List α),
    (mapIdxFrom f s l).length = l.length := by
  intro s l
  induction l generalizing s with
  | nil => rfl
  | cons x xs ih => simp [mapIdxFrom, ih]

lemma mapIdxFrom_getD (f : Nat → α → β) (dα : α) (dβ : β) :
    ∀ (s : Nat) (l : List α) (i : Nat), i < l.length →
      (mapIdxFrom f s l).getD i dβ = f (s + i) (l.getD i dα) := by
  intro s l
  induction l generalizing s with
  | nil => intro i hi; cases hi
  | cons x xs ih =>
    intro i hi
    cases i with
    | zero => simp [mapIdxFrom]
    | succ n =>
      have := ih (s + 1) n (by simpa using hi)
      simp only [mapIdxFrom, List.getD_cons_succ, this]
      ring_nf

lemma getD_map (g : α → β) (dα : α) (dβ : β) :
    ∀ (l : List α) (i : Nat), i < l.length →
      (l.map g).getD i dβ = g (l.getD i dα) := by
  intro l
  induction l with
  | nil => intro i hi; cases hi
  | cons x xs ih =>
    intro i hi
    cases i with
    | zero => rfl
    | succ n => exact ih n (by simpa using hi)

lemma serveNode_q (c : Nat) (rate : ℚ) (I : Intersection) (d : Fin 4) :
    (serveNode c rate I).1.q d +
      min (canServe rate ((nodeGreenSplit I c).1 d)) (I.q d) = I.q d := by
  have hm := min_le_right (canServe rate ((nodeGreenSplit I c).1 d)) (I.q d)
  simp only [serveNode]
  omega

lemma serveNode_q_le (c : Nat) (rate : ℚ) (I : Intersection) (d : Fin 4) :
    (serveNode c rate I).1.q d ≤ I.q d := by
  simp only [serveNode]
  omega

lemma serveNode_sum (c : Nat) (rate : ℚ) (I : Intersection) :
    sum4 (serveNode c rate I).1.q + (serveNode c rate I).2 = sum4 I.q := by
  have m0 := min_le_right (canServe rate ((nodeGreenSplit I c).1 0)) (I.q 0)
  have m1 := min_le_right (canServe rate ((nodeGreenSplit I c).1 1)) (I.q 1)
  have m2 := min_le_right (canServe rate ((nodeGreenSplit I c).1 2)) (I.q 2)
  have m3 := min_le_right (canServe rate ((nodeGreenSplit I c).1 3)) (I.q 3)
  simp only [serveNode, sum4]
  omega

lemma mapIdxFrom_q_pointwise (f : Nat → Intersection → Intersection)
    (hf : ∀ i x, (f i x).q = x.q) :
    ∀ (s : Nat) (l : List Intersection) (i : Nat),
      ((mapIdxFrom f s l).getD i default).q = ((l.getD i default)).q := by
  intro s l
  induction l generalizing s with
  | nil => intro i; rfl
  | cons x xs ih =>
    intro i
    cases i with
    | zero => simpa [mapIdxFrom] using hf s x
    | succ n => simpa [mapIdxFrom] using ih (s + 1) n

lemma map_q_pointwise (g : Intersection → Intersection) (hg : ∀ x, (g x).q = x.q) :
    ∀ (l : List Intersection) (i : Nat),
      (((l.map g).getD i default)).q = ((l.getD i default)).q := by
  intro l
  induction l with
  | nil => intro i; rfl
  | cons x xs ih =>
    intro i
    cases i with
    | zero => simpa using hg x
    | succ n => simpa using ih n

lemma applyOverride_q (ct : List Intersection) (u : Nat) (d : Fin 4) (i : Nat) :
    (((applyOverride ct u d).getD i default)).q = ((ct.getD i default)).q := by
  refine mapIdxFrom_q_pointwise _ ?_ 0 ct i
  intro j x
  by_cases hj : j = u <;> simp [hj]

lemma setOverrides_q (path : List Nat) (C : Nat) (ct : List Intersection) (i : Nat) :
    (((setOverrides ct path C).getD i default)).q = ((ct.getD i default)).q := by
  rw [setOverrides]
  generalize List.range (path.length - 1) = L
  induction L generalizing ct with
  | nil => rfl
  | cons a L ih =>
    simp only [List.foldl]
    cases pathDir (path.getD a 0) (path.getD (a + 1) 0) C with
    | none => exact ih ct
    | some d => rw [ih (applyOverride ct (path.getD a 0) d), applyOverride_q]

lemma clearOverrides_q (l : List Intersection) (i : Nat) :
    (((clearOverrides l).getD i default)).q = ((l.getD i default)).q := by
  refine map_q_pointwise _ ?_ l i
  intro x
  rfl

lemma addArrivals_q (city : List Intersection) (arr : Nat → Fin 4 → Nat) (i : Nat)
    (hi : i < city.length) (d : Fin 4) :
    ((addArrivals city arr).getD i default).q d = (city.getD i default).q d + arr i d := by
  rw [addArrivals, mapIdxFrom_getD _ default default 0 city i hi]
  simp

lemma applyOverride_length (ct : List Intersection) (u : Nat) (d : Fin 4) :
    (applyOverride ct u d).length = ct.length :=
  mapIdxFrom_length _ 0 ct

lemma setOverrides_length (path : List Nat) (C : Nat) (ct : List Intersection) :
    (setOverrides ct path C).length = ct.length := by
  rw [setOverrides]
  generalize List.range (path.length - 1) = L
  induction L generalizing ct with
  | nil => rfl
  | cons a L ih =>
    simp only [List.foldl]
    cases pathDir (path.getD a 0) (path.getD (a + 1) 0) C with
    | none => exact ih ct
    | some d => rw [ih (applyOverride ct (path.getD a 0) d), applyOverride_length]

lemma cycleMidState_length (city : List Intersection) (path : List Nat) (C : Nat)
    (arr : Nat → Fin 4 → Nat) :
    (cycleMidState city path C arr).length = city.length := by
  rw [cycleMidState, setOverrides_length, clearOverrides, List.length_map, addArrivals,
    mapIdxFrom_length]

lemma cycleMidState_q (city : List Intersection) (path : List Nat) (C : Nat)
    (arr : Nat → Fin 4 → Nat) (i : Nat) (hi : i < city.length) (d : Fin 4) :
    ((cycleMidState city path C arr).getD i default).q d
      = (city.getD i default).q d + arr i d := by
  rw [cycleMidState, setOverrides_q, clearOverrides_q, addArrivals_q city arr i hi]

lemma mapIdxFrom_map_sumq (f : Nat → Intersection → Intersection)
    (hf : ∀ i x, (f i x).q = x.q) :
    ∀ (s : Nat) (l : List Intersection),
      ((mapIdxFrom f s l).map fun I => sum4 I.q) = l.map fun I => sum4 I.q := by
  intro s l
  induction l generalizing s with
  | nil => rfl
  | cons x xs ih => simp [mapIdxFrom, hf, ih]

lemma applyOverride_map_sumq (ct : List Intersection) (u : Nat) (d : Fin 4) :
    ((applyOverride ct u d).map fun I => sum4 I.q) = ct.map fun I => sum4 I.q := by
  refine mapIdxFrom_map_sumq _ ?_ 0 ct
  intro j x
  by_cases hj : j = u <;> simp [hj]

lemma setOverrides_map_sumq (path : List Nat) (C : Nat) (ct : List Intersection) :
    ((setOverrides ct path C).map fun I => sum4 I.q) = ct.map fun I => sum4 I.q := by
  rw [setOverrides]
  generalize List.range (path.length - 1) = L
  induction L generalizing ct with
  | nil => rfl
  | cons a L ih =>
    simp only [List.foldl]
    cases pathDir (path.getD a 0) (path.getD (a + 1) 0) C with
    | none => exact ih ct
    | some d => rw [ih (applyOverride ct (path.getD a 0) d), applyOverride_map_sumq]

lemma clearOverrides_map_sumq (l : List Intersection) :
    ((clearOverrides l).map fun I => sum4 I.q) = l.map fun I => sum4 I.q := by
  rw [clearOverrides, List.map_map]
  rfl

lemma addArrivals_sumq (arr : Nat → Fin 4 → Nat) :
    ∀ (s : Nat) (l : List Intersection),
      ((mapIdxFrom (fun i I => { I with q := fun d => I.q d + arr i d }) s l).map
          fun I => sum4 I.q).sum
        = (l.map fun I => sum4 I.q).sum + arrivedFrom arr s l.length := by
  intro s l
  induction l generalizing s with
  | nil => rfl
  | cons x xs ih =>
    simp only [mapIdxFrom, List.map_cons, List.sum_cons, List.length_cons, arrivedFrom, ih]
    have : sum4 (fun d => x.q d + arr s d) = sum4 x.q + arrSum arr s := by
      simp [sum4, arrSum]
      ring
    omega

lemma serve_map_sum (c : Nat) (rate : ℚ) :
    ∀ l : List Intersection,
      (((l.map (serveNode c rate)).map fun p => sum4 p.1.q).sum
          + ((l.map (serveNode c rate)).map Prod.snd).sum)
        = (l.map fun I => sum4 I.q).sum := by
  intro l
  induction l with
  | nil => rfl
  | cons x xs ih =>
    have hx := serveNode_sum c rate x
    simp only [List.map_cons, List.sum_cons]
    omega

/-! ## Cycle simulator claims -/

/-- C3: whenever at least one override flag is set at a node, the final split
gives the whole cycle to the first overridden direction in N,S,E,W order and
records it as the green direction; with East the (first) overridden
direction the split is exactly `[0,0,cycleSeconds,0]` with green `E`. -/
theorem c3_ambulance_full_override (I : Intersection) (c : Nat) (d0 : Fin 4)
    (h : I.ambulance_override d0 = true) :
    (∃ g : Fin 4, firstOverrideDir I.ambulance_override = some g ∧
        I.ambulance_override g = true ∧
        nodeGreenSplit I c = (fun d => if d = g then c else 0, ((g : Nat) : Int))) ∧
    (I.ambulance_override 0 = false → I.ambulance_override 1 = false →
      I.ambulance_override 2 = true → nodeGreenSplit I c = (![0, 0, c, 0], 2)) := by
  have hov : hasOverride I.ambulance_override = true := by
    rw [hasOverride, List.any_eq_true]
    exact ⟨d0, List.mem_finRange d0, h⟩
  constructor
  · cases hfind : firstOverrideDir I.ambulance_override with
    | none =>
      exfalso
      rw [firstOverrideDir, List.find?_eq_none] at hfind
      exact absurd h (by simpa using hfind d0 (List.mem_finRange d0))
    | some g =>
      refine ⟨g, rfl, ?_, ?_⟩
      · rw [firstOverrideDir] at hfind
        simpa using List.find?_some hfind
      · simp only [nodeGreenSplit, hov, if_true, hfind]
  · intro h0 h1 h2
    have hfind : firstOverrideDir I.ambulance_override = some 2 := by
      rw [firstOverrideDir, finRange_four]
      simp [List.find?, h0, h1, h2]
    simp only [nodeGreenSplit, hov, if_true, hfind]
    refine Prod.ext ?_ rfl
    funext d
    fin_cases d <;> rfl

/-- Witness for C3: a node with override on East and busy queues. -/
theorem c3_ambulance_full_override_witness :
    (![false, false, true, false] : Fin 4 → Bool) 2 = true ∧
      ((∃ g : Fin 4,
          firstOverrideDir
              (Intersection.mk 0 ![5, 3, 7, 1] (-1) ![false, false, true, false]).ambulance_override
            = some g ∧
          (Intersection.mk 0 ![5, 3, 7, 1] (-1)
              ![false, false, true, false]).ambulance_override g = true ∧
          nodeGreenSplit (Intersection.mk 0 ![5, 3, 7, 1] (-1) ![false, false, true, false]) 30
            = (fun d => if d = g then 30 else 0, ((g : Nat) : Int))) ∧
        ((Intersection.mk 0 ![5, 3, 7, 1] (-1)
            ![false, false, true, false]).ambulance_override 0 = false →
          (Intersection.mk 0 ![5, 3, 7, 1] (-1)
            ![false, false, true, false]).ambulance_override 1 = false →
          (Intersection.mk 0 ![5, 3, 7, 1] (-1)
            ![false, false, true, false]).ambulance_override 2 = true →
          nodeGreenSplit (Intersection.mk 0 ![5, 3, 7, 1] (-1) ![false, false, true, false]) 30
            = (![0, 0, 30, 0], 2))) :=
  ⟨by decide,
    c3_ambulance_full_override
      (Intersection.mk 0 ![5, 3, 7, 1] (-1) ![false, false, true, false]) 30 2 (by decide)⟩

/-- C4: queue conservation.  Globally, the post-service queue total plus the
served count equals the pre-cycle total plus the arrivals; per node, the
same bookkeeping holds exactly, and no queue exceeds its pre-service value
(service is capped at the available queue, so queues stay non-negative). -/
theorem c4_queue_conservation (city : List Intersection) (path : List Nat)
    (Cc c : Nat) (rate : ℚ) (arr : Nat → Fin 4 → Nat) (i : Nat) (hi : i < city.length) :
    (((simulateCycle city path Cc c rate arr).1.map fun I => sum4 I.q).sum
        + (simulateCycle city path Cc c rate arr).2.2.1
      = (city.map fun I => sum4 I.q).sum + (simulateCycle city path Cc c rate arr).2.1)
    ∧ (sum4 (((simulateCycle city path Cc c rate arr).1.getD i default).q)
        + (serveNode c rate ((cycleMidState city path Cc arr).getD i default)).2
      = sum4 ((city.getD i default).q) + arrSum arr i)
    ∧ ∀ d, ((simulateCycle city path Cc c rate arr).1.getD i default).q d
        ≤ (city.getD i default).q d + arr i d := by
  have hmid : ((cycleMidState city path Cc arr).map fun I => sum4 I.q).sum
      = (city.map fun I => sum4 I.q).sum + arrivedFrom arr 0 city.length := by
    rw [cycleMidState, setOverrides_map_sumq, clearOverrides_map_sumq, addArrivals,
      addArrivals_sumq]
  have hserve := serve_map_sum c rate (cycleMidState city path Cc arr)
  have hleni : i < (cycleMidState city path Cc arr).length := by
    rw [cycleMidState_length]
    exact hi
  have hget : (simulateCycle city path Cc c rate arr).1.getD i default
      = (serveNode c rate ((cycleMidState city path Cc arr).getD i default)).1 := by
    simp only [simulateCycle, List.map_map]
    rw [getD_map _ default default _ i (by simpa using hleni)]
    rfl
  have hmidq : ∀ d, ((cycleMidState city path Cc arr).getD i default).q d
      = (city.getD i default).q d + arr i d := cycleMidState_q city path Cc arr i hi
  refine ⟨?_, ?_, ?_⟩
  · simp only [simulateCycle, List.map_map]
    have hcomp :
        ((cycleMidState city path Cc arr).map
            ((fun I => sum4 I.q) ∘ Prod.fst ∘ serveNode c rate)).sum
          + ((cycleMidState city path Cc arr).map
              (Prod.snd ∘ serveNode c rate)).sum
        = ((cycleMidState city path Cc arr).map fun I => sum4 I.q).sum := by
      have h1 : ((cycleMidState city path Cc arr).map
          ((fun I => sum4 I.q) ∘ Prod.fst ∘ serveNode c rate))
          = ((cycleMidState city path Cc arr).map (serveNode c rate)).map
              fun p => sum4 p.1.q := by
        rw [List.map_map]
        rfl
      have h2 : ((cycleMidState city path Cc arr).map (Prod.snd ∘ serveNode c rate))
          = ((cycleMidState city path Cc arr).map (serveNode c rate)).map Prod.snd := by
        rw [List.map_map]
      rw [h1, h2, hserve]
    rw [hmid] at hcomp
    omega
  · rw [hget]
    have hs := serveNode_sum c rate ((cycleMidState city path Cc arr).getD i default)
    have hsum2 : sum4 (((cycleMidState city path Cc arr).getD i default).q)
        = sum4 ((city.getD i default).q) + arrSum arr i := by
      simp only [sum4, arrSum, hmidq]
      ring
    omega
  · intro d
    rw [hget]
    have h1 := serveNode_q_le c rate ((cycleMidState city path Cc arr).getD i default) d
    rw [hmidq d] at h1
    exact h1

/-- Witness for C4: a single intersection, one unit of arrival per lane. -/
theorem c4_queue_conservation_witness :
    (0 : Nat) < c4wCity.length ∧
      ((((simulateCycle c4wCity [] 2 30 (1 / 2) c4wArr).1.map fun I => sum4 I.q).sum
          + (simulateCycle c4wCity [] 2 30 (1 / 2) c4wArr).2.2.1
        = (c4wCity.map fun I => sum4 I.q).sum
          + (simulateCycle c4wCity [] 2 30 (1 / 2) c4wArr).2.1)
      ∧ (sum4 (((simulateCycle c4wCity [] 2 30 (1 / 2) c4wArr).1.getD 0 default).q)
          + (serveNode 30 (1 / 2) ((cycleMidState c4wCity [] 2 c4wArr).getD 0 default)).2
        = sum4 ((c4wCity.getD 0 default).q) + arrSum c4wArr 0)
      ∧ ∀ d, ((simulateCycle c4wCity [] 2 30 (1 / 2) c4wArr).1.getD 0 default).q d
          ≤ (c4wCity.getD 0 default).q d + c4wArr 0 d) :=
  ⟨by decide, c4_queue_conservation c4wCity [] 2 30 (1 / 2) c4wArr 0 (by decide)⟩

lemma setOverrides_nil (path : List Nat) (C : Nat) : setOverrides [] path C = [] := by
  rw [setOverrides]
  generalize List.range (path.length - 1) = L
  induction L with
  | nil => rfl
  | cons a L ih =>
    simp only [List.foldl]
    cases pathDir (path.getD a 0) (path.getD (a + 1) 0) C with
    | none => exact ih
    | some d => exact ih

lemma simulateCycle_nil (path : List Nat) (C c : Nat) (rate : ℚ)
    (arr : Nat → Fin 4 → Nat) :
    simulateCycle [] path C c rate arr = ([], 0, 0, 0) := by
  simp [simulateCycle, cycleMidState, addArrivals, mapIdxFrom, clearOverrides,
    setOverrides_nil, arrivedFrom]

lemma buildGridGraph_zero_cols (R : Nat) : buildGridGraph R 0 = [] := by
  rw [buildGridGraph]
  induction List.range R with
  | nil => rfl
  | cons a L ih => simpa using ih

/-- Default-rate capacity: with `serviceRate = 0.5` the `1e-9` slack never
crosses an integer, so the capacity is `⌊sec / 2⌋`. -/
lemma canServe_half (s : Nat) : canServe (1 / 2) s = s / 2 := by
  rw [canServe]
  have h1 : s = 2 * (s / 2) + s % 2 := (Nat.div_add_mod s 2).symm
  have h2 : s % 2 < 2 := Nat.mod_lt _ (by norm_num)
  have hq : (s : ℚ) = 2 * ((s / 2 : Nat) : ℚ) + ((s % 2 : Nat) : ℚ) := by exact_mod_cast h1
  have hr : ((s % 2 : Nat) : ℚ) ≤ 1 := by exact_mod_cast Nat.lt_succ_iff.mp h2
  have hr0 : (0 : ℚ) ≤ ((s % 2 : Nat) : ℚ) := by positivity
  have key : ⌊(1 / 2 : ℚ) * s + 1 / 1000000000⌋ = ((s / 2 : Nat) : ℤ) := by
    rw [Int.floor_eq_iff]
    rw [Int.cast_natCast, hq]
    constructor
    · linarith
    · linarith
  rw [key]
  exact Int.toNat_natCast _

/-- C5, counterexample: the source performs no dimension validation.  With
`R = 0` the grid builder succeeds with an empty adjacency structure and a
full simulation cycle runs normally (over zero intersections) instead of
failing at setup. -/
theorem c5_counterexample :
    buildGridGraph 0 2 = [] ∧
      simulateCycle [] [] 2 30 (1 / 2) (fun _ _ => 0) = ([], 0, 0, 0) :=
  ⟨rfl, simulateCycle_nil [] 2 30 (1 / 2) (fun _ _ => 0)⟩

/-- C5 (amended): the code contains no `InvalidDimension`/`ConfigurationError`
check.  For `R = 0` or `C = 0` (the representable boundary of `R ≤ 0`,
`C ≤ 0`) `buildGridGraph` returns an empty adjacency list, setup succeeds,
and every simulated cycle runs normally over the empty city. -/
theorem c5_no_dimension_validation (R Ccols cyc : Nat) (rate : ℚ)
    (arr : Nat → Fin 4 → Nat) (path : List Nat) :
    buildGridGraph 0 Ccols = [] ∧ buildGridGraph R 0 = [] ∧
      simulateCycle [] path Ccols cyc rate arr = ([], 0, 0, 0) :=
  ⟨rfl, buildGridGraph_zero_cols R, simulateCycle_nil path Ccols cyc rate arr⟩

/-- C6, counterexample: the code computes
`floor(serviceRate * seconds + 1e-9)`, not `floor(serviceRate * seconds)`.
At rate `0.9999999999`, a 1-second allocation and queues `[5,5,5,5]` with
`cycleSeconds = 4` (every direction gets exactly 1 second), the code serves
1 vehicle per direction while the claimed formula serves 0: the remaining
queue is `4`, not `5 - min(5, floor(rate*1)) = 5`. -/
theorem c6_counterexample :
    (serveNode 4 (9999999999 / 10000000000 : ℚ)
        (Intersection.mk 0 ![5, 5, 5, 5] (-1) ![false, false, false, false])).1.q 0
      ≠ (Intersection.mk 0 ![5, 5, 5, 5] (-1) ![false, false, false, false]).q 0 -
          min ((Intersection.mk 0 ![5, 5, 5, 5] (-1) ![false, false, false, false]).q 0)
            ((⌊(9999999999 / 10000000000 : ℚ) *
                ((nodeGreenSplit
                    (Intersection.mk 0 ![5, 5, 5, 5] (-1) ![false, false, false, false])
                    4).1 0 : Nat)⌋).toNat) := by
  have hsplit : (nodeGreenSplit
      (Intersection.mk 0 ![5, 5, 5, 5] (-1) ![false, false, false, false]) 4).1 0 = 1 := by
    decide
  have hcs : canServe (9999999999 / 10000000000 : ℚ) 1 = 1 := by
    rw [canServe]
    have h : ⌊(9999999999 / 10000000000 : ℚ) * (1 : Nat) + 1 / 1000000000⌋ = 1 := by
      rw [Int.floor_eq_iff] <;> norm_num
    rw [h]
    rfl
  have hfl : ⌊(9999999999 / 10000000000 : ℚ) * ((1 : Nat) : ℚ)⌋ = 0 := by
    rw [Int.floor_eq_iff] <;> norm_num
  rw [hsplit, hfl]
  have hlhs : (serveNode 4 (9999999999 / 10000000000 : ℚ)
      (Intersection.mk 0 ![5, 5, 5, 5] (-1) ![false, false, false, false])).1.q 0
      = 5 - min (canServe (9999999999 / 10000000000 : ℚ)
          ((nodeGreenSplit
            (Intersection.mk 0 ![5, 5, 5, 5] (-1) ![false, false, false, false]) 4).1 0)) 5 := by
    simp only [serveNode]
    rfl
  rw [hlhs, hsplit, hcs]
  decide

/-- C6 (amended): vehicles served per direction equal
`min(queue, floor(serviceRate * seconds + 1e-9))` — the code adds the `1e-9`
slack before flooring — summed over the four directions for the node total;
for the default rate `0.5` the slack is irrelevant and the capacity is
exactly `⌊seconds / 2⌋`. -/
theorem c6_service_formula (I : Intersection) (c : Nat) (rate : ℚ) (d : Fin 4) :
    ((serveNode c rate I).1.q d
        + min (canServe rate ((nodeGreenSplit I c).1 d)) (I.q d) = I.q d)
    ∧ ((serveNode c rate I).2
        = min (canServe rate ((nodeGreenSplit I c).1 0)) (I.q 0)
          + min (canServe rate ((nodeGreenSplit I c).1 1)) (I.q 1)
          + min (canServe rate ((nodeGreenSplit I c).1 2)) (I.q 2)
          + min (canServe rate ((nodeGreenSplit I c).1 3)) (I.q 3))
    ∧ ∀ s, canServe (1 / 2) s = s / 2 :=
  ⟨serveNode_q c rate I d, rfl, canServe_half⟩

/-! ### Priority queue lemmas -/

lemma pqMinAux_spec : ∀ (l : List (Nat × Nat)) (best : Nat × Nat),
    (pqMinAux best l = best ∨ pqMinAux best l ∈ l) ∧
      (pqMinAux best l).1 ≤ best.1 ∧ ∀ x ∈ l, (pqMinAux best l).1 ≤ x.1 := by
  intro l
  induction l with
  | nil =>
    intro best
    exact ⟨Or.inl rfl, le_refl _, fun x hx => absurd hx (List.not_mem_nil x)⟩
  | cons p rest ih =>
    intro best
    simp only [pqMinAux]
    set best' := if pairLtB p best then p else best with hb
    obtain ⟨hmem, hle, hall⟩ := ih best'
    have hb_le : best'.1 ≤ best.1 ∧ best'.1 ≤ p.1 := by
      rw [hb]
      by_cases hc : pairLtB p best = true
      · rw [if_pos hc]
        refine ⟨?_, le_refl _⟩
        have := of_decide_eq_true hc
        rcases this with h | ⟨h, _⟩
        · exact le_of_lt h
        · exact le_of_eq h
      · rw [if_neg hc]
        refine ⟨le_refl _, ?_⟩
        have := of_decide_eq_false (eq_false_of_ne_true hc)
        push_neg at this
        exact this.1
    refine ⟨?_, le_trans hle hb_le.1, ?_⟩
    · rcases hmem with h | h
      · rw [h, hb]
        by_cases hc : pairLtB p best = true
        · rw [if_pos hc]; exact Or.inr (List.mem_cons_self p rest)
        · rw [if_neg hc]; exact Or.inl rfl
      · exact Or.inr (List.mem_cons_of_mem p h)
    · intro x hx
      rcases List.mem_cons.mp hx with h | h
      · subst h; exact le_trans hle hb_le.2
      · exact hall x h

lemma pqPop_spec {pq : List (Nat × Nat)} {m : Nat × Nat} {rest : List (Nat × Nat)}
    (h : pqPop pq = some (m, rest)) :
    m ∈ pq ∧ rest = pq.erase m ∧ ∀ x ∈ pq, m.1 ≤ x.1 := by
  cases pq with
  | nil => cases h
  | cons p l =>
    simp only [pqPop] at h
    obtain ⟨hm, hrest⟩ := Prod.mk.injEq _ _ _ _ ▸ Option.some.injEq _ _ ▸ h
    obtain ⟨hmem, hle, hall⟩ := pqMinAux_spec l p
    subst hm
    constructor
    · rcases hmem with h | h
      · rw [h]; exact List.mem_cons_self p l
      · exact List.mem_cons_of_mem p h
    · refine ⟨hrest.symm, ?_⟩
      intro x hx
      rcases List.mem_cons.mp hx with h | h
      · subst h; exact hle
      · exact hall x h

lemma pqPop_none {pq : List (Nat × Nat)} (h : pqPop pq = none) : pq = [] := by
  cases pq with
  | nil => rfl
  | cons p l => cases h

/-! ### Edge lookup and path cost lemmas -/

lemma find?_edge {es : List Edge} {b : Nat} {e : Edge}
    (h : es.find? (fun x => x.tgt == b) = some e) : e ∈ es ∧ e.tgt = b := by
  refine ⟨List.mem_of_find?_eq_some h, ?_⟩
  have := List.find?_some h
  simpa using this

lemma find?_of_mem_nodup : ∀ {es : List Edge} {e : Edge} {b : Nat},
    (es.map Edge.tgt).Nodup → e ∈ es → e.tgt = b →
    es.find? (fun x => x.tgt == b) = some e := by
  intro es
  induction es with
  | nil => intro e b _ he; cases he
  | cons a rest ih =>
    intro e b hn he htgt
    rcases List.mem_cons.mp he with h | h
    · subst h
      simp [List.find?, htgt]
    · have hne : a.tgt ≠ b := by
        intro hab
        have : a.tgt ∈ rest.map Edge.tgt := by
          rw [hab, ← htgt]
          exact List.mem_map_of_mem Edge.tgt h
        exact (List.nodup_cons.mp (by simpa using hn)).1 this
      rw [List.find?_cons_of_neg _ (by simpa using hne)]
      exact ih (List.nodup_cons.mp (by simpa using hn)).2 h htgt

lemma costFrom_cons {g : List (List Edge)} {a b : Nat} {rest : List Nat} {c : Nat} :
    costFrom g a (b :: rest) = some c ↔
      ∃ e c1, (adjOf g a).find? (fun x => x.tgt == b) = some e ∧
        costFrom g b rest = some c1 ∧ c = e.w + c1 := by
  constructor
  · intro h
    simp only [costFrom] at h
    cases hf : (adjOf g a).find? (fun x => x.tgt == b) with
    | none => rw [hf] at h; cases h
    | some e =>
      rw [hf] at h
      cases hc : costFrom g b rest with
      | none => rw [hc] at h; cases h
      | some c1 =>
        rw [hc] at h
        refine ⟨e, c1, rfl, rfl, ?_⟩
        simpa using h.symm
  · rintro ⟨e, c1, hf, hc, rfl⟩
    simp [costFrom, hf, hc]

lemma costFrom_append {g : List (List Edge)} :
    ∀ (rest : List Nat) (a u v c : Nat) (e : Edge),
      costFrom g a rest = some c → (a :: rest).getLast? = some u →
      (adjOf g u).find? (fun x => x.tgt == v) = some e →
      costFrom g a (rest ++ [v]) = some (c + e.w) := by
  intro rest
  induction rest with
  | nil =>
    intro a u v c e hc hl hf
    have ha : a = u := by simpa using hl
    subst ha
    have hc0 : c = 0 := by simpa [costFrom] using hc.symm
    subst hc0
    simp [costFrom, hf]
  | cons b r ih =>
    intro a u v c e hc hl hf
    obtain ⟨e1, c1, hf1, hc1, rfl⟩ := costFrom_cons.mp hc
    have hl2 : (b :: r).getLast? = some u := by
      simpa [List.getLast?_cons_cons] using hl
    have := ih b u v c1 e hc1 hl2 hf
    have : costFrom g a ((b :: r) ++ [v]) = some (e1.w + (c1 + e.w)) := by
      refine costFrom_cons.mpr ⟨e1, c1 + e.w, hf1, this, rfl⟩
    rw [this]
    congr 1
    omega

/-! ### Parent walk -/

lemma walkParents_spec (g : List (List Edge)) (src : Nat)
    (hG : GraphOk g) (hN : TargetsNodup g) (dist : Nat → Nat)
    (parent : Nat → Option Nat)
    (hpar : ParentInv g dist parent) (hroot : ParentRoot src dist parent) :
    ∀ (fuel v : Nat), dist v < fuel → dist v < INF →
      ∃ rest c, (walkParents parent fuel v).reverse = src :: rest ∧
        (src :: rest).getLast? = some v ∧ costFrom g src rest = some c ∧
        c ≤ dist v := by
  intro fuel
  induction fuel with
  | zero => intro v hv _; cases hv
  | succ n ih =>
    intro v hv hINF
    cases hpv : parent v with
    | none =>
      have hv_src : v = src := hroot v hINF hpv
      subst hv_src
      exact ⟨[], 0, by simp [walkParents, hpv], by simp, rfl, Nat.zero_le _⟩
    | some u =>
      obtain ⟨hu_lt, e, he, htgt, hrelax⟩ := hpar v u hpv
      have hw : 1 ≤ e.w := (hG u hu_lt e he).2
      have hdu : dist u < dist v := by omega
      obtain ⟨rest, c, hrev, hlast, hcost, hle⟩ :=
        ih u (by omega) (lt_of_lt_of_le hdu (le_of_lt hINF))
      have hf : (adjOf g u).find? (fun x => x.tgt == v) = some e :=
        find?_of_mem_nodup (hN u) he htgt
      refine ⟨rest ++ [v], c + e.w, ?_, ?_, ?_, by omega⟩
      · simp only [walkParents, hpv, List.reverse_cons, hrev]
        rfl
      · rw [show src :: (rest ++ [v]) = (src :: rest) ++ [v] from rfl]
        exact List.getLast?_concat _
      · exact costFrom_append rest src u v c e hcost hlast hf

/-! ### Frontier escape -/

lemma escape_front {g : List (List Edge)} {src : Nat} {S : Nat → Prop}
    {dist : Nat → Nat} {parent : Nat → Option Nat} {pq : List (Nat × Nat)}
    (hG : GraphOk g) (inv : DijkInv g src S dist parent pq) :
    ∀ (rest : List Nat) (a D c : Nat), a < g.length → S a → dist a ≤ D →
      costFrom g a rest = some c → D + c < INF →
      (∃ z, (a :: rest).getLast? = some z ∧ S z ∧ dist z ≤ D + c) ∨
      (∃ v, (dist v, v) ∈ pq ∧ dist v ≤ D + c) := by
  intro rest
  induction rest with
  | nil =>
    intro a D c ha hSa hda hc hINF
    have hc0 : c = 0 := by simpa [costFrom] using hc.symm
    subst hc0
    exact Or.inl ⟨a, by simp, hSa, by omega⟩
  | cons b r ih =>
    intro a D c ha hSa hda hc hINF
    obtain ⟨e, c1, hf, hc1, rfl⟩ := costFrom_cons.mp hc
    obtain ⟨he, htgt⟩ := find?_edge hf
    have hb_lt : b < g.length := htgt ▸ (hG a ha e he).1
    have hrel : dist e.tgt ≤ dist a + e.w := inv.s_relax a hSa e he
    rw [htgt] at hrel
    have hlast : (a :: b :: r).getLast? = (b :: r).getLast? := List.getLast?_cons_cons
    by_cases hSb : S b
    · rcases ih b (D + e.w) c1 hb_lt hSb (by omega) hc1 (by omega) with
        ⟨z, hz, hSz, hdz⟩ | ⟨v, hv, hdv⟩
      · refine Or.inl ⟨z, ?_, hSz, by omega⟩
        rw [hlast]
        exact hz
      · exact Or.inr ⟨v, hv, by omega⟩
    · exact Or.inr ⟨b, inv.fresh b hb_lt hSb (by omega), by omega⟩

lemma path_escape {g : List (List Edge)} {src : Nat} {S : Nat → Prop}
    {dist : Nat → Nat} {parent : Nat → Option Nat} {pq : List (Nat × Nat)}
    (hG : GraphOk g) (hsrc : src < g.length)
    (inv : DijkInv g src S dist parent pq) :
    ∀ (rest : List Nat) (c : Nat), costFrom g src rest = some c → c < INF →
      (∃ z, (src :: rest).getLast? = some z ∧ S z ∧ dist z ≤ c) ∨
      (∃ v, (dist v, v) ∈ pq ∧ dist v ≤ c) := by
  intro rest c hc hINF
  by_cases hS : S src
  · have := escape_front hG inv rest src 0 c hsrc hS (by rw [inv.dist_src]) hc
      (by omega)
    simpa using this
  · refine Or.inr ⟨src, ?_, ?_⟩
    · have h0 : dist src < INF := by
        rw [inv.dist_src, INF]
        norm_num
      exact inv.fresh src hsrc hS h0
    · rw [inv.dist_src]
      exact Nat.zero_le c

/-! ### Relaxation preserves the invariant -/

lemma no_relax_into_settled {g : List (List Edge)} {src u : Nat} {S : Nat → Prop}
    {dist0 : Nat → Nat}
    {st : (Nat → Nat) × (Nat → Option Nat) × List (Nat × Nat)}
    (hG : GraphOk g) (hN : TargetsNodup g) (hu : u < g.length)
    (hu0 : st.1 u < INF)
    (hinv : RelaxInv g src u S dist0 st) (e : Edge) (he : e ∈ adjOf g u)
    (htS : S e.tgt ∨ e.tgt = u) : ¬ (st.1 u + e.w < st.1 e.tgt) := by
  intro hlt
  rcases htS with hS | hEq
  · obtain ⟨rest, c, hrev, hlast, hcost, hle⟩ :=
      walkParents_spec g src hG hN st.1 st.2.1 hinv.par hinv.root INF u hu0 hu0
    have hf : (adjOf g u).find? (fun x => x.tgt == e.tgt) = some e :=
      find?_of_mem_nodup (hN u) he rfl
    have hext := costFrom_append rest src u e.tgt c e hcost hlast hf
    have hlast2 : (src :: (rest ++ [e.tgt])).getLast? = some e.tgt := by
      rw [show src :: (rest ++ [e.tgt]) = (src :: rest) ++ [e.tgt] from rfl]
      exact List.getLast?_concat _
    have := hinv.s_lb e.tgt (Or.inl hS) (rest ++ [e.tgt]) (c + e.w) hext hlast2
    omega
  · rw [hEq] at hlt
    omega

lemma sumDist_update {n t v : Nat} (dist : Nat → Nat) (ht : t < n) :
    sumDist n (Function.update dist t v) + dist t = sumDist n dist + v := by
  have h1 := Finset.sum_update_of_mem (Finset.mem_range.mpr ht) dist v
  have h2 : dist t + ∑ x ∈ Finset.range n \ {t}, dist x = ∑ x ∈ Finset.range n, dist x := by
    rw [Finset.sdiff_singleton_eq_erase]
    exact Finset.add_sum_erase _ dist (Finset.mem_range.mpr ht)
  rw [sumDist, sumDist, h1]
  omega

lemma relaxStep_inv {g : List (List Edge)} {src u : Nat} {S : Nat → Prop}
    {dist0 : Nat → Nat}
    {st : (Nat → Nat) × (Nat → Option Nat) × List (Nat × Nat)}
    (hG : GraphOk g) (hN : TargetsNodup g) (hu : u < g.length)
    (hinv : RelaxInv g src u S dist0 st) (e : Edge) (he : e ∈ adjOf g u) :
    RelaxInv g src u S dist0 (relaxStep u st e) ∧
      (relaxStep u st e).1 e.tgt ≤ (relaxStep u st e).1 u + e.w ∧
      (∀ v, (relaxStep u st e).1 v ≤ st.1 v) ∧
      2 * sumDist g.length (relaxStep u st e).1 + (relaxStep u st e).2.2.length
        ≤ 2 * sumDist g.length st.1 + st.2.2.length := by
  by_cases hrel : st.1 u + e.w < st.1 e.tgt
  case neg =>
    rw [relaxStep, if_neg hrel]
    exact ⟨hinv, by omega, fun v => le_refl _, le_refl _⟩
  case pos =>
    have hu0 : st.1 u < INF := by
      have := hinv.dist_le e.tgt
      omega
    have htmem : ¬ (S e.tgt ∨ e.tgt = u) := fun h =>
      no_relax_into_settled hG hN hu hu0 hinv e he h hrel
    have ht_lt : e.tgt < g.length := (hG u hu e he).1
    have hw1 : 1 ≤ e.w := (hG u hu e he).2
    have hne_u : e.tgt ≠ u := fun h => htmem (Or.inr h)
    have hval_lt : st.1 u + e.w < INF := lt_of_lt_of_le hrel (hinv.dist_le e.tgt)
    have hupd : ∀ v, Function.update st.1 e.tgt (st.1 u + e.w) v
        = if v = e.tgt then st.1 u + e.w else st.1 v := fun v => Function.update_apply ..
    have hmono : ∀ v, Function.update st.1 e.tgt (st.1 u + e.w) v ≤ st.1 v := by
      intro v
      rw [hupd]
      split
      · rename_i hv
        rw [hv] at *
        omega
      · exact le_refl _
    have hMkey := sumDist_update (n := g.length) (t := e.tgt)
      (v := st.1 u + e.w) st.1 ht_lt
    have fpinned : ∀ x, S x ∨ x = u →
        Function.update st.1 e.tgt (st.1 u + e.w) x = dist0 x := by
      intro x hx
      rw [hupd, if_neg (fun hxe => htmem (by rw [← hxe]; exact hx))]
      exact hinv.pinned x hx
    have fmono : ∀ v, Function.update st.1 e.tgt (st.1 u + e.w) v ≤ dist0 v :=
      fun v => le_trans (hmono v) (hinv.mono v)
    have fsrc : Function.update st.1 e.tgt (st.1 u + e.w) src = 0 := by
      rw [hupd]
      split
      · rename_i hv
        exfalso
        rw [← hv, hinv.dist_src] at hrel
        omega
      · exact hinv.dist_src
    have fle : ∀ v, Function.update st.1 e.tgt (st.1 u + e.w) v ≤ INF := by
      intro v
      rw [hupd]
      split
      · omega
      · exact hinv.dist_le v
    have flb : ∀ x, S x ∨ x = u → ∀ rest c, costFrom g src rest = some c →
        (src :: rest).getLast? = some x →
        Function.update st.1 e.tgt (st.1 u + e.w) x ≤ c := by
      intro x hx rest c hc hl
      rw [hupd, if_neg (fun hxe => htmem (by rw [← hxe]; exact hx))]
      exact hinv.s_lb x hx rest c hc hl
    have frelax : ∀ x, S x → ∀ e2 ∈ adjOf g x,
        Function.update st.1 e.tgt (st.1 u + e.w) e2.tgt
          ≤ Function.update st.1 e.tgt (st.1 u + e.w) x + e2.w := by
      intro x hx e2 he2
      have hx_ne : x ≠ e.tgt := fun hxe => htmem (by rw [← hxe]; exact Or.inl hx)
      rw [hupd, hupd, if_neg hx_ne]
      split
      · rename_i hv
        have := hinv.s_relax_old x hx e2 he2
        rw [hv] at this
        omega
      · exact hinv.s_relax_old x hx e2 he2
    have ffresh : ∀ v, v < g.length → ¬ (S v ∨ v = u) →
        Function.update st.1 e.tgt (st.1 u + e.w) v < INF →
        (Function.update st.1 e.tgt (st.1 u + e.w) v, v)
          ∈ (st.1 u + e.w, e.tgt) :: st.2.2 := by
      intro v hv hvS hvINF
      rw [hupd] at hvINF ⊢
      by_cases hve : v = e.tgt
      · rw [if_pos hve] at *
        subst hve
        exact List.mem_cons_self _ _
      · rw [if_neg hve] at *
        exact List.mem_cons_of_mem _ (hinv.fresh v hv hvS hvINF)
    have fpq : ∀ d v, (d, v) ∈ (st.1 u + e.w, e.tgt) :: st.2.2 →
        v < g.length ∧ Function.update st.1 e.tgt (st.1 u + e.w) v ≤ d ∧ d < INF := by
      intro d v hdv
      rcases List.mem_cons.mp hdv with h | h
      · obtain ⟨h1, h2⟩ := Prod.mk.injEq _ _ _ _ ▸ h
        subst h1
        subst h2
        rw [hupd, if_pos rfl]
        exact ⟨ht_lt, le_refl _, hval_lt⟩
      · obtain ⟨hv1, hv2, hv3⟩ := hinv.pq_ok d v h
        exact ⟨hv1, le_trans (hmono v) hv2, hv3⟩
    have fpar : ParentInv g (Function.update st.1 e.tgt (st.1 u + e.w))
        (Function.update st.2.1 e.tgt (some u)) := by
      intro v u2 hp
      rw [Function.update_apply] at hp
      by_cases hve : v = e.tgt
      · rw [if_pos hve] at hp
        obtain rfl : u2 = u := by
          cases hp
          rfl
        refine ⟨hu, e, he, hve.symm, ?_⟩
        simp only [hupd]
        rw [if_neg (Ne.symm hne_u), if_pos hve]
      · rw [if_neg hve] at hp
        obtain ⟨hu2, e2, he2, htgt2, hle2⟩ := hinv.par v u2 hp
        refine ⟨hu2, e2, he2, htgt2, ?_⟩
        have h1 := hmono u2
        rw [hupd v, if_neg hve]
        omega
    have froot : ParentRoot src (Function.update st.1 e.tgt (st.1 u + e.w))
        (Function.update st.2.1 e.tgt (some u)) := by
      intro v hvINF hnone
      rw [Function.update_apply] at hnone
      by_cases hve : v = e.tgt
      · rw [if_pos hve] at hnone
        cases hnone
      · rw [if_neg hve] at hnone
        rw [hupd, if_neg hve] at hvINF
        exact hinv.root v hvINF hnone
    have fbound : Function.update st.1 e.tgt (st.1 u + e.w) e.tgt
        ≤ Function.update st.1 e.tgt (st.1 u + e.w) u + e.w := by
      rw [Function.update_same, Function.update_noteq (Ne.symm hne_u)]
    have fmeasure : 2 * sumDist g.length (Function.update st.1 e.tgt (st.1 u + e.w))
        + ((st.1 u + e.w, e.tgt) :: st.2.2).length
        ≤ 2 * sumDist g.length st.1 + st.2.2.length := by
      simp only [List.length_cons]
      omega
    rw [relaxStep, if_pos hrel]
    exact ⟨⟨fpinned, fmono, fsrc, fle, flb, frelax, ffresh, fpq, fpar, froot⟩,
      fbound, hmono, fmeasure⟩

lemma relaxList_inv {g : List (List Edge)} {src u : Nat} {S : Nat → Prop}
    {dist0 : Nat → Nat}
    (hG : GraphOk g) (hN : TargetsNodup g) (hu : u < g.length) :
    ∀ (es : List Edge) (st : (Nat → Nat) × (Nat → Option Nat) × List (Nat × Nat)),
      (∀ e ∈ es, e ∈ adjOf g u) → RelaxInv g src u S dist0 st →
      RelaxInv g src u S dist0 (es.foldl (relaxStep u) st) ∧
        (∀ e ∈ es, (es.foldl (relaxStep u) st).1 e.tgt
            ≤ (es.foldl (relaxStep u) st).1 u + e.w) ∧
        (∀ v, (es.foldl (relaxStep u) st).1 v ≤ st.1 v) ∧
        2 * sumDist g.length (es.foldl (relaxStep u) st).1
            + (es.foldl (relaxStep u) st).2.2.length
          ≤ 2 * sumDist g.length st.1 + st.2.2.length := by
  intro es
  induction es with
  | nil =>
    intro st _ hinv
    exact ⟨hinv, by simp, fun v => le_refl _, le_refl _⟩
  | cons e es ih =>
    intro st hmem hinv
    obtain ⟨hinv1, hbound1, hmono1, hM1⟩ :=
      relaxStep_inv hG hN hu hinv e (hmem e (List.mem_cons_self e es))
    obtain ⟨hinvF, hboundF, hmonoF, hMF⟩ :=
      ih (relaxStep u st e) (fun e' he' => hmem e' (List.mem_cons_of_mem e he')) hinv1
    simp only [List.foldl_cons]
    refine ⟨hinvF, ?_, ?_, ?_⟩
    · intro e' he'
      rcases List.mem_cons.mp he' with h | h
      · subst h
        have hpinF : (es.foldl (relaxStep u) (relaxStep u st e')).1 u = dist0 u :=
          hinvF.pinned u (Or.inr rfl)
        have hpin1 : (relaxStep u st e').1 u = dist0 u := hinv1.pinned u (Or.inr rfl)
        have h1 := hmonoF e'.tgt
        rw [hpinF]
        rw [hpin1] at hbound1
        omega
      · exact hboundF e' h
    · intro v
      exact le_trans (hmonoF v) (hmono1 v)
    · omega

lemma fresh_pop_lb {g : List (List Edge)} {src : Nat} {S : Nat → Prop}
    {dist : Nat → Nat} {parent : Nat → Option Nat} {pq : List (Nat × Nat)}
    {d u : Nat}
    (hG : GraphOk g) (hsrc : src < g.length)
    (inv : DijkInv g src S dist parent pq)
    (hmin : ∀ x ∈ pq, d ≤ x.1) (hd : d = dist u) :
    ∀ rest c, costFrom g src rest = some c → (src :: rest).getLast? = some u →
      dist u ≤ c := by
  intro rest c hc hl
  by_cases hINF : c < INF
  · rcases path_escape hG hsrc inv rest c hc hINF with ⟨z, hz, _, hdz⟩ | ⟨v, hv, hdv⟩
    · have hz_u : z = u := Option.some.inj (hz.symm.trans hl)
      exact hz_u ▸ hdz
    · have := hmin (dist v, v) hv
      omega
  · have := inv.dist_le u
    omega

lemma settle_dijkinv {g : List (List Edge)} {src : Nat} {S : Nat → Prop}
    {dist : Nat → Nat} {parent : Nat → Option Nat} {pq : List (Nat × Nat)}
    {d u : Nat}
    (hG : GraphOk g) (hN : TargetsNodup g) (hsrc : src < g.length)
    (inv : DijkInv g src S dist parent pq)
    (hmem : (d, u) ∈ pq) (hmin : ∀ x ∈ pq, d ≤ x.1) (hd : d = dist u) :
    DijkInv g src (fun v => S v ∨ v = u)
      ((adjOf g u).foldl (relaxStep u) (dist, parent, pq.erase (d, u))).1
      ((adjOf g u).foldl (relaxStep u) (dist, parent, pq.erase (d, u))).2.1
      ((adjOf g u).foldl (relaxStep u) (dist, parent, pq.erase (d, u))).2.2 ∧
    2 * sumDist g.length
          ((adjOf g u).foldl (relaxStep u) (dist, parent, pq.erase (d, u))).1
        + ((adjOf g u).foldl (relaxStep u) (dist, parent, pq.erase (d, u))).2.2.length
      < 2 * sumDist g.length dist + pq.length := by
  have hu_lt : u < g.length := (inv.pq_ok d u hmem).1
  have hlb_u := fresh_pop_lb hG hsrc inv hmin hd
  have ffresh0 : ∀ v, v < g.length → ¬ (S v ∨ v = u) → dist v < INF →
      (dist v, v) ∈ pq.erase (d, u) := by
    intro v hv hvS hvINF
    have hne : ((dist v, v) : Nat × Nat) ≠ (d, u) := by
      intro hEq
      exact hvS (Or.inr (congrArg Prod.snd hEq))
    exact (List.mem_erase_of_ne hne).mpr (inv.fresh v hv (fun h => hvS (Or.inl h)) hvINF)
  have fpq0 : ∀ dd vv, (dd, vv) ∈ pq.erase (d, u) →
      vv < g.length ∧ dist vv ≤ dd ∧ dd < INF := by
    intro dd vv hdd
    exact inv.pq_ok dd vv (List.erase_subset _ _ hdd)
  have flb0 : ∀ x, S x ∨ x = u → ∀ rest c, costFrom g src rest = some c →
      (src :: rest).getLast? = some x → dist x ≤ c := by
    intro x hx rest c hc hl
    rcases hx with hS | hEq
    · exact inv.s_lb x hS rest c hc hl
    · subst hEq
      exact hlb_u rest c hc hl
  have hR0 : RelaxInv g src u S dist (dist, parent, pq.erase (d, u)) :=
    ⟨fun _ _ => rfl, fun _ => le_refl _, inv.dist_src, inv.dist_le, flb0,
      inv.s_relax, ffresh0, fpq0, inv.par, inv.root⟩
  obtain ⟨hRF, hbounds, hmonoF, hMF⟩ :=
    relaxList_inv hG hN hu_lt (adjOf g u)
      (dist, parent, pq.erase (d, u)) (fun e he => he) hR0
  constructor
  · refine ⟨hRF.dist_src, hRF.dist_le, ?_, hRF.s_lb, ?_, hRF.fresh, hRF.pq_ok,
      hRF.par, hRF.root⟩
    · intro x hx
      rcases hx with hS | hEq
      · exact inv.s_lt x hS
      · exact hEq ▸ hu_lt
    · intro x hx e he
      rcases hx with hS | hEq
      · exact hRF.s_relax_old x hS e he
      · subst hEq
        exact hbounds e he
  · have hMF2 : 2 * sumDist g.length
          ((adjOf g u).foldl (relaxStep u) (dist, parent, pq.erase (d, u))).1
        + ((adjOf g u).foldl (relaxStep u) (dist, parent, pq.erase (d, u))).2.2.length
        ≤ 2 * sumDist g.length dist + (pq.erase (d, u)).length := hMF
    have hlen := List.length_erase_of_mem hmem
    have hpos : 1 ≤ pq.length := List.length_pos_of_mem hmem
    omega

lemma dijkstraLoop_post (g : List (List Edge)) (src dest : Nat)
    (hG : GraphOk g) (hN : TargetsNodup g) (hsrc : src < g.length) :
    ∀ (fuel : Nat) (S : Nat → Prop) (dist : Nat → Nat) (parent : Nat → Option Nat)
      (pq : List (Nat × Nat)),
      DijkInv g src S dist parent pq →
      2 * sumDist g.length dist + pq.length < fuel →
      PostOk g src dest (dijkstraLoop g dest fuel dist parent pq) := by
  intro fuel
  induction fuel with
  | zero =>
    intro S dist parent pq _ hM
    exact absurd hM (Nat.not_lt_zero _)
  | succ n ih =>
    intro S dist parent pq inv hM
    cases hpop : pqPop pq with
    | none =>
      have hpq_nil := pqPop_none hpop
      subst hpq_nil
      simp only [dijkstraLoop, hpop]
      refine ⟨inv.dist_src, inv.dist_le, inv.par, inv.root, ?_⟩
      intro rest c hc hl
      by_cases hINF : c < INF
      · rcases path_escape hG hsrc inv rest c hc hINF with ⟨z, hz, _, hdz⟩ | ⟨v, hv, _⟩
        · have hz_d : z = dest := Option.some.inj (hz.symm.trans hl)
          exact hz_d ▸ hdz
        · exact absurd hv (List.not_mem_nil _)
      · exact le_trans (inv.dist_le dest) (le_of_not_lt hINF)
    | some md =>
      obtain ⟨⟨d, u⟩, pq1⟩ := md
      obtain ⟨hmem, hrest, hmin⟩ := pqPop_spec hpop
      subst hrest
      simp only [dijkstraLoop, hpop]
      by_cases hstale : d ≠ dist u
      · rw [if_pos hstale]
        refine ih S dist parent (pq.erase (d, u))
          ⟨inv.dist_src, inv.dist_le, inv.s_lt, inv.s_lb, inv.s_relax, ?_, ?_,
            inv.par, inv.root⟩ ?_
        · intro v hv hS hINF
          have hne : ((dist v, v) : Nat × Nat) ≠ (d, u) := by
            intro hEq
            have h1 : dist v = d := congrArg Prod.fst hEq
            have h2 : v = u := congrArg Prod.snd hEq
            apply hstale
            rw [← h1, h2]
          exact (List.mem_erase_of_ne hne).mpr (inv.fresh v hv hS hINF)
        · intro dd vv hdd
          exact inv.pq_ok dd vv (List.erase_subset _ _ hdd)
        · have hlen := List.length_erase_of_mem hmem
          have hpos : 1 ≤ pq.length := List.length_pos_of_mem hmem
          omega
      · rw [if_neg hstale]
        have hd : d = dist u := not_ne_iff.mp hstale
        by_cases hdest : u = dest
        · rw [if_pos hdest]
          subst hdest
          exact ⟨inv.dist_src, inv.dist_le, inv.par, inv.root,
            fresh_pop_lb hG hsrc inv hmin hd⟩
        · rw [if_neg hdest]
          obtain ⟨hinv2, hM2⟩ := settle_dijkinv hG hN hsrc inv hmem hmin hd
          exact ih _ _ _ _ hinv2 (by omega)

/-! ### Router correctness -/

lemma initial_dijkinv (g : List (List Edge)) (src : Nat) (hsrc : src < g.length) :
    DijkInv g src (fun _ => False) (fun v => if v = src then 0 else INF)
      (fun _ => none) [(0, src)] := by
  refine ⟨by simp, ?_, ?_, ?_, ?_, ?_, ?_, ?_, ?_⟩
  · intro v
    split
    · exact Nat.zero_le _
    · exact le_refl _
  · intro u h
    cases h
  · intro u h
    cases h
  · intro u h
    cases h
  · intro v hv hS hINF
    have hv_src : v = src := by
      by_contra hne
      rw [if_neg hne] at hINF
      omega
    subst hv_src
    rw [if_pos rfl]
    exact List.mem_singleton_self _
  · intro d v h
    have h2 := List.mem_singleton.mp h
    have hd : d = 0 := congrArg Prod.fst h2
    have hv : v = src := congrArg Prod.snd h2
    subst hd
    subst hv
    refine ⟨hsrc, ?_, by rw [INF]; norm_num⟩
    rw [if_pos rfl]
  · intro v u h
    cases h
  · intro v hINF _
    by_contra hne
    have hINF2 : (if v = src then 0 else INF) < INF := hINF
    rw [if_neg hne] at hINF2
    omega

lemma dijkstraPath_spec (g : List (List Edge)) (hG : GraphOk g) (hN : TargetsNodup g)
    (src dest : Nat) (hsrc : src < g.length)
    (hex : ∃ p c, PCost g src dest p c ∧ c < INF) :
    ∃ c, PCost g src dest (dijkstraPath src dest g) c ∧
      dijkstraPath src dest g ≠ [] ∧
      ∀ p' c', PCost g src dest p' c' → c ≤ c' := by
  have hMinit : 2 * sumDist g.length (fun v => if v = src then 0 else INF)
      + ([((0 : Nat), src)]).length < 2 * g.length * INF + 2 := by
    have hsum : sumDist g.length (fun v => if v = src then 0 else INF)
        ≤ g.length * INF := by
      rw [sumDist]
      calc ∑ v ∈ Finset.range g.length, (if v = src then 0 else INF)
          ≤ ∑ _v ∈ Finset.range g.length, INF := by
            refine Finset.sum_le_sum ?_
            intro i _
            split
            · exact Nat.zero_le _
            · exact le_refl _
        _ = g.length * INF := by
            rw [Finset.sum_const, Finset.card_range, smul_eq_mul]
    have hmul : 2 * g.length * INF = 2 * (g.length * INF) := by ring
    simp only [List.length_cons, List.length_nil]
    omega
  have hpost := dijkstraLoop_post g src dest hG hN hsrc (2 * g.length * INF + 2)
    (fun _ => False) (fun v => if v = src then 0 else INF) (fun _ => none)
    [(0, src)] (initial_dijkinv g src hsrc) hMinit
  obtain ⟨hds, hdle, hpar, hroot, hlb⟩ := hpost
  obtain ⟨p, c, ⟨rest, hp, hlast, hcost⟩, hcINF⟩ := hex
  have hdd : (dijkstraLoop g dest (2 * g.length * INF + 2)
      (fun v => if v = src then 0 else INF) (fun _ => none) [(0, src)]).1 dest < INF :=
    lt_of_le_of_lt (hlb rest c hcost hlast) hcINF
  have hpath : dijkstraPath src dest g =
      (walkParents (dijkstraLoop g dest (2 * g.length * INF + 2)
        (fun v => if v = src then 0 else INF) (fun _ => none) [(0, src)]).2
        INF dest).reverse := by
    simp only [dijkstraPath]
    rw [if_neg (Nat.ne_of_lt hdd)]
  obtain ⟨restw, cw, hrev, hlastw, hcostw, hlew⟩ :=
    walkParents_spec g src hG hN _ _ hpar hroot INF dest hdd hdd
  refine ⟨cw, ⟨restw, hpath.trans hrev, hlastw, hcostw⟩, ?_, ?_⟩
  · rw [hpath.trans hrev]
    exact List.cons_ne_nil _ _
  · rintro p' c' ⟨rest', _, hlast', hcost'⟩
    have h1 := hlb rest' c' hcost' hlast'
    omega

/-! ## Router claims -/

/-- C9: calling the router with `source == destination == s` pops the single
fresh entry `(0, s)`, hits the early `u == dest` break, and reconstructs the
single-node path `[s]` — never the empty sequence. -/
theorem c9_source_equals_destination (g : List (List Edge)) (s : Nat)
    (hs : s < g.length) : dijkstraPath s s g = [s] := by
  have hloop : dijkstraLoop g s (2 * g.length * INF + 1 + 1)
      (fun v => if v = s then 0 else INF) (fun _ => none) [(0, s)]
      = (fun v => if v = s then 0 else INF, fun _ => none) := by
    simp [dijkstraLoop, pqPop, pqMinAux]
  simp only [dijkstraPath]
  rw [show 2 * g.length * INF + 2 = 2 * g.length * INF + 1 + 1 from rfl, hloop]
  have h0 : ¬ ((fun v => if v = s then 0 else INF, fun _ => none) :
      (Nat → Nat) × (Nat → Option Nat)).1 s = INF := by
    simp [INF]
  rw [if_neg h0]
  rw [show INF = 999999999 + 1 from rfl]
  simp [walkParents]

/-- Witness for C9 on the 2-by-2 grid at node 1. -/
theorem c9_source_equals_destination_witness :
    1 < (buildGridGraph 2 2).length ∧ dijkstraPath 1 1 (buildGridGraph 2 2) = [1] :=
  ⟨by decide, c9_source_equals_destination (buildGridGraph 2 2) 1 (by decide)⟩

/-! ### Grid graph lemmas -/

lemma flatMap_grid_length (f : Nat → Nat → List Edge) (C : Nat) :
    ∀ R, ((List.range R).flatMap fun r => (List.range C).map fun c => f r c).length
      = R * C := by
  intro R
  induction R with
  | zero => simp
  | succ n ih =>
    rw [List.range_succ, List.flatMap_append]
    simp only [List.length_append, ih, List.flatMap_cons, List.flatMap_nil,
      List.append_nil, List.length_map, List.length_range]
    rw [Nat.succ_mul]

lemma flatMap_grid_getD (f : Nat → Nat → List Edge) (C : Nat) :
    ∀ (R r c : Nat), r < R → c < C →
      ((List.range R).flatMap fun r => (List.range C).map fun c => f r c).getD
          (r * C + c) []
        = f r c := by
  intro R
  induction R with
  | zero => intro r c hr _; cases hr
  | succ n ih =>
    intro r c hr hc
    rw [List.range_succ, List.flatMap_append]
    by_cases hrn : r < n
    · rw [List.getD_append]
      · exact ih r c hrn hc
      · rw [flatMap_grid_length]
        calc r * C + c < r * C + C := by omega
          _ = (r + 1) * C := (Nat.succ_mul r C).symm
          _ ≤ n * C := Nat.mul_le_mul_right C (by omega)
    · have hr_eq : r = n := by omega
      subst hr_eq
      rw [List.getD_append_right]
      · rw [flatMap_grid_length, show r * C + c - r * C = c from by omega]
        simp only [List.flatMap_cons, List.flatMap_nil, List.append_nil]
        rw [getD_map (fun c => f r c) 0 [] (List.range C) c (by simpa using hc)]
        rw [List.getD_eq_getElem?_getD, List.getElem?_range hc]
        rfl
      · rw [flatMap_grid_length]
        exact Nat.le_add_right _ _

lemma buildGridGraph_length (R C : Nat) : (buildGridGraph R C).length = R * C :=
  flatMap_grid_length (gridNeighbors R C) C R

lemma buildGridGraph_adjOf (R C u : Nat) (hu : u < R * C) :
    adjOf (buildGridGraph R C) u = gridNeighbors R C (u / C) (u % C) := by
  have hC : 0 < C := by
    rcases Nat.eq_zero_or_pos C with h | h
    · subst h
      rw [Nat.mul_zero] at hu
      cases hu
    · exact h
  have hr : u / C < R := (Nat.div_lt_iff_lt_mul hC).mpr hu
  have hc : u % C < C := Nat.mod_lt u hC
  have hidx : u / C * C + u % C = u := by
    rw [Nat.mul_comm]
    exact Nat.div_add_mod u C
  rw [adjOf]
  conv_lhs => rw [← hidx]
  rw [buildGridGraph, flatMap_grid_getD (gridNeighbors R C) C R _ _ hr hc]

lemma gridNeighbors_mem {R C r c : Nat} {e : Edge} (hr : r < R) (hc : c < C)
    (he : e ∈ gridNeighbors R C r c) : e.w = 1 ∧ e.tgt < R * C := by
  rw [gridNeighbors] at he
  obtain ⟨d, _, hd⟩ := List.mem_filterMap.mp he
  simp only at hd
  split at hd
  · rename_i hcond
    obtain ⟨h1, h2, h3, h4⟩ := hcond
    cases hd
    refine ⟨rfl, ?_⟩
    have ha : ((r : Int) + drI d).toNat < R := by omega
    have hb : ((c : Int) + dcI d).toNat < C := by omega
    rw [nodeId]
    calc ((r : Int) + drI d).toNat * C + ((c : Int) + dcI d).toNat
        < ((r : Int) + drI d).toNat * C + C := by omega
      _ = (((r : Int) + drI d).toNat + 1) * C := (Nat.succ_mul _ C).symm
      _ ≤ R * C := Nat.mul_le_mul_right C (by omega)
  · cases hd

lemma buildGridGraph_ok (R C : Nat) : GraphOk (buildGridGraph R C) := by
  intro u hu e he
  rw [buildGridGraph_length] at hu
  rw [buildGridGraph_adjOf R C u hu] at he
  have hC : 0 < C := by
    rcases Nat.eq_zero_or_pos C with h | h
    · subst h
      rw [Nat.mul_zero] at hu
      cases hu
    · exact h
  obtain ⟨hw, ht⟩ := gridNeighbors_mem ((Nat.div_lt_iff_lt_mul hC).mpr hu)
    (Nat.mod_lt u hC) he
  refine ⟨?_, by omega⟩
  rw [buildGridGraph_length]
  exact ht

/-! ### Grid graphs have no parallel edges -/

lemma gridNeighbors_tgt_nodup (R C r c : Nat) :
    ((gridNeighbors R C r c).map Edge.tgt).Nodup := by
  rw [gridNeighbors, List.map_filterMap]
  refine List.Nodup.filterMap ?_ (List.nodup_finRange 4)
  intro d d' t hd hd'
  rw [Option.mem_def] at hd hd'
  have e1 : (r - 1) * C = r * C - C := by
    rw [Nat.sub_mul, one_mul]
  have e2 : (r + 1) * C = r * C + C := by ring
  have e3 : C ≤ r * C ∨ r = 0 := by
    rcases Nat.eq_zero_or_pos r with h | h
    · exact Or.inr h
    · exact Or.inl (Nat.le_mul_of_pos_left C h)
  have tN : ((r : Int) + -1).toNat = r - 1 := by omega
  have tS : ((r : Int) + 1).toNat = r + 1 := by omega
  have tE : ((c : Int) + 1).toNat = c + 1 := by omega
  have tW : ((c : Int) + -1).toNat = c - 1 := by omega
  have tZr : ((r : Int) + 0).toNat = r := by omega
  have tZc : ((c : Int) + 0).toNat = c := by omega
  fin_cases d <;> fin_cases d' <;>
    simp only [drI, dcI, nodeId, tN, tS, tE, tW, tZr, tZc] at hd hd' <;>
    first
      | rfl
      | (exfalso
         split at hd
         · split at hd'
           · simp only [Option.map_some', Option.some.injEq] at hd hd'
             rw [← hd'] at hd
             rcases e3 with h3 | h3 <;> omega
           · exact Option.noConfusion hd'
         · exact Option.noConfusion hd)

lemma buildGridGraph_targets_nodup (R C : Nat) : TargetsNodup (buildGridGraph R C) := by
  intro u
  rcases Nat.lt_or_ge u (R * C) with hu | hu
  · rw [buildGridGraph_adjOf R C u hu]
    exact gridNeighbors_tgt_nodup R C (u / C) (u % C)
  · have h0 : adjOf (buildGridGraph R C) u = [] :=
      List.getD_eq_default _ _ (by rw [buildGridGraph_length]; exact hu)
    rw [h0, List.map_nil]
    exact List.nodup_nil

/-! ### Congestion reweighting preserves graph validity -/

lemma reweight_length (city : List Intersection) (g : List (List Edge)) :
    (reweight city g).length = g.length := by
  rw [reweight, List.length_map]

lemma reweight_adjOf (city : List Intersection) (g : List (List Edge)) (u : Nat) :
    adjOf (reweight city g) u
      = (adjOf g u).map fun e => ⟨e.tgt, 1 + congestionOf city e.tgt / 5⟩ := by
  rcases Nat.lt_or_ge u g.length with hu | hu
  · rw [adjOf, adjOf, reweight, getD_map _ ([] : List Edge) ([] : List Edge) g u hu]
  · have h1 : adjOf (reweight city g) u = [] :=
      List.getD_eq_default _ _ (by rw [reweight_length]; exact hu)
    have h2 : adjOf g u = [] := List.getD_eq_default _ _ hu
    rw [h1, h2, List.map_nil]

lemma reweight_ok (city : List Intersection) (g : List (List Edge))
    (hG : GraphOk g) : GraphOk (reweight city g) := by
  intro u hu e he
  rw [reweight_length] at hu
  rw [reweight_adjOf] at he
  obtain ⟨e0, he0, hee⟩ := List.mem_map.mp he
  obtain ⟨ht, _⟩ := hG u hu e0 he0
  subst hee
  constructor
  · show e0.tgt < (reweight city g).length
    rw [reweight_length]
    exact ht
  · show 1 ≤ 1 + congestionOf city e0.tgt / 5
    omega

lemma reweight_targets_nodup (city : List Intersection) (g : List (List Edge))
    (hN : TargetsNodup g) : TargetsNodup (reweight city g) := by
  intro u
  rw [reweight_adjOf, List.map_map]
  have hcomp : (Edge.tgt ∘ fun e : Edge =>
      (⟨e.tgt, 1 + congestionOf city e.tgt / 5⟩ : Edge)) = Edge.tgt := by
    funext e
    rfl
  rw [hcomp]
  exact hN u

/-- C2 counterexample: on a 1-by-4 grid whose queues hold 500000000 vehicles
per direction, every reweighted edge costs `1 + 2000000000/5 = 400000001`, so
the only 0-to-3 walk costs 1200000003, at which point the relaxation
`dist[2] + w < dist[3] = INF = 10^9` fails; the congestion router then treats
node 3 as unreachable and returns the empty path even though the grid is
connected and the path `[0, 1, 2, 3]` exists. -/
theorem c2_counterexample :
    (0 : Nat) < (buildGridGraph 1 4).length ∧
    (3 : Nat) < (buildGridGraph 1 4).length ∧
    PCost (reweight c2city (buildGridGraph 1 4)) 0 3 [0, 1, 2, 3] 1200000003 ∧
    dijkstraCongestionPath 0 3 (buildGridGraph 1 4) c2city = [] :=
  ⟨by decide, by decide, ⟨[1, 2, 3], rfl, by decide, by decide⟩, by decide⟩

/-- C2 (amended): on any grid, whenever some path of cost below the `INF`
sentinel exists under the relevant weighting, each router variant returns a
non-empty source-to-destination path of minimum accumulated weight — the
unit-weight router under unit weights, the congestion router under the
snapshot weights `1 + congestion/5`. -/
theorem c2_routers_return_min_weight_paths (R C src dest : Nat)
    (city : List Intersection)
    (hs : src < R * C) (hd : dest < R * C)
    (hex1 : ∃ p c, PCost (buildGridGraph R C) src dest p c ∧ c < INF)
    (hex2 : ∃ p c, PCost (reweight city (buildGridGraph R C)) src dest p c ∧ c < INF) :
    (∃ c, PCost (buildGridGraph R C) src dest
          (dijkstraPath src dest (buildGridGraph R C)) c ∧
        dijkstraPath src dest (buildGridGraph R C) ≠ [] ∧
        ∀ p' c', PCost (buildGridGraph R C) src dest p' c' → c ≤ c') ∧
    (∃ c, PCost (reweight city (buildGridGraph R C)) src dest
          (dijkstraCongestionPath src dest (buildGridGraph R C) city) c ∧
        dijkstraCongestionPath src dest (buildGridGraph R C) city ≠ [] ∧
        ∀ p' c', PCost (reweight city (buildGridGraph R C)) src dest p' c' → c ≤ c') := by
  constructor
  · exact dijkstraPath_spec (buildGridGraph R C) (buildGridGraph_ok R C)
      (buildGridGraph_targets_nodup R C) src dest
      (by rw [buildGridGraph_length]; exact hs) hex1
  · exact dijkstraPath_spec (reweight city (buildGridGraph R C))
      (reweight_ok city (buildGridGraph R C) (buildGridGraph_ok R C))
      (reweight_targets_nodup city (buildGridGraph R C)
        (buildGridGraph_targets_nodup R C)) src dest
      (by rw [reweight_length, buildGridGraph_length]; exact hs) hex2

/-- Witness for C2 on the 2-by-2 grid, corners 0 and 3, empty city snapshot:
the path `[0, 1, 3]` of cost 2 discharges both reachability hypotheses. -/
theorem c2_routers_return_min_weight_paths_witness :
    (∃ c, PCost (buildGridGraph 2 2) 0 3
          (dijkstraPath 0 3 (buildGridGraph 2 2)) c ∧
        dijkstraPath 0 3 (buildGridGraph 2 2) ≠ [] ∧
        ∀ p' c', PCost (buildGridGraph 2 2) 0 3 p' c' → c ≤ c') ∧
    (∃ c, PCost (reweight [] (buildGridGraph 2 2)) 0 3
          (dijkstraCongestionPath 0 3 (buildGridGraph 2 2) []) c ∧
        dijkstraCongestionPath 0 3 (buildGridGraph 2 2) [] ≠ [] ∧
        ∀ p' c', PCost (reweight [] (buildGridGraph 2 2)) 0 3 p' c' → c ≤ c') :=
  c2_routers_return_min_weight_paths 2 2 0 3 [] (by decide) (by decide)
    ⟨[0, 1, 3], 2, ⟨[1, 3], rfl, by decide, by decide⟩, by decide⟩
    ⟨[0, 1, 3], 2, ⟨[1, 3], rfl, by decide, by decide⟩, by decide⟩
